import Mathlib

/-!
Verification of the summarization core of the research-assistant service.

Texts are modelled as `List Char`.  The embedded code is
`app/core/summarizer.py`: the output parser `_parse_llm_output`, the input
builder `_prepare_input_text`, the orchestrator `summarize`, and (modelled
from the specification, since the splitter implementation lives in an
external library) the recursive character text splitter configured in
`LlamaSummarizer.__init__`.
-/

namespace Summarizer

/-- Whitespace test modelling Python's `\s` / `str.isspace` on the code
points that occur in practice: ASCII whitespace, the `\x1c`-`\x1f`
separators, NEL (U+0085) and NBSP (U+00A0).  (Further Unicode
space-separator code points also count as whitespace in Python; they play
no role in any theorem or concrete input below.) -/
def isSpaceChar (c : Char) : Bool :=
  c = ' ' || c = '\t' || c = '\n' || c = '\r' ||
  c = Char.ofNat 11 || c = Char.ofNat 12 ||
  c = Char.ofNat 28 || c = Char.ofNat 29 || c = Char.ofNat 30 || c = Char.ofNat 31 ||
  c = Char.ofNat 133 || c = Char.ofNat 160

/-- ASCII decimal digit, modelling `\d` for the inputs at hand. -/
def isDigitChar (c : Char) : Bool := '0' ≤ c && c ≤ '9'

/-- Case folding used by `re.IGNORECASE` when matching the ASCII marker
letters: ASCII upper → lower, plus the `sre` extra equivalences that hit
letters of the two markers (U+0131 → i, U+017F → s, U+212A → k). -/
def foldChar (c : Char) : Char :=
  if 'A' ≤ c && c ≤ 'Z' then Char.ofNat (c.toNat + 32)
  else if c = Char.ofNat 305 then 'i'
  else if c = Char.ofNat 383 then 's'
  else if c = Char.ofNat 8490 then 'k'
  else c

/-- Drop trailing characters satisfying `isSpaceChar`. -/
def dropTrailingWs (l : List Char) : List Char :=
  (l.reverse.dropWhile isSpaceChar).reverse

/-- Python `str.strip()`: remove leading and trailing whitespace. -/
def pyStrip (l : List Char) : List Char :=
  dropTrailingWs (l.dropWhile isSpaceChar)

/-- Index of the first case-insensitive occurrence of `pat` (given already
folded) in `s`, as `re.search` locates a literal with `IGNORECASE`. -/
def findCI (pat : List Char) : List Char → Option Nat
  | [] => if pat.isEmpty then some 0 else none
  | c :: cs =>
    if (((c :: cs).take pat.length).map foldChar) = pat then some 0
    else ((findCI pat cs).map (· + 1))

/-- The folded text of the first delimiter, `FINAL SUMMARY:`. -/
def finalMarker : List Char := "final summary:".toList

/-- The folded text of the second delimiter, `KEY CONCEPTS:`. -/
def keyMarker : List Char := "key concepts:".toList

/-- Group 1 of `re.search(r"FINAL SUMMARY:(.*?)KEY CONCEPTS:", s, IGNORECASE|DOTALL)`:
the match must start at an occurrence of the first marker that is followed
(lazily, so by the nearest later occurrence) by the second marker; if the
first occurrence of `FINAL SUMMARY:` has no `KEY CONCEPTS:` after it then
no later occurrence has either, so the search fails. -/
def summaryMatch (s : List Char) : Option (List Char) :=
  match findCI finalMarker s with
  | none => none
  | some i =>
    let rest := s.drop (i + finalMarker.length)
    match findCI keyMarker rest with
    | none => none
    | some k => some (rest.take k)

/-- Group 1 of `re.search(r"KEY CONCEPTS:(.*)", s, IGNORECASE|DOTALL)`:
everything after the first case-insensitive occurrence of the marker. -/
def conceptsMatch (s : List Char) : Option (List Char) :=
  (findCI keyMarker s).map (fun i => s.drop (i + keyMarker.length))

/-- The bullet alternative `(?:[-*•]|\d+\.)` of the concept pattern: a
single `-`, `*` or `•`, or a maximal run of digits followed by a dot.
Returns the remainder after the marker.  (Backtracking inside `\d+` cannot
produce other matches: stopping earlier leaves a digit where the dot must
be.) -/
def bulletTrim : List Char → Option (List Char)
  | [] => none
  | c :: cs =>
    if c = '-' || c = '*' || c = Char.ofNat 8226 then some cs
    else
      let ds := (c :: cs).takeWhile isDigitChar
      if ds.isEmpty then none
      else
        match (c :: cs).drop ds.length with
        | d :: rest => if d = '.' then some rest else none
        | [] => none

/-- Index of the last `'\n'` in a list, if any. -/
def lastNlIdx : List Char → Option Nat
  | [] => none
  | c :: cs =>
    match lastNlIdx cs with
    | some i => some (i + 1)
    | none => if c = '\n' then some 0 else none

/-- One attempted match of `^\s*(?:[-*•]|\d+\.)\s*(.*?)\s*$` (MULTILINE) at
a position where `^` holds, on the suffix `r1` that begins at the first
non-whitespace character reachable from that position (the leading greedy
`\s*`, which may cross newlines, is deterministic because no bullet
character is whitespace).  After the bullet, the second greedy `\s*` is
likewise maximal; the lazy group then takes the current line up to its
last non-whitespace character, and the trailing `\s*$` extends, through
the greedy-then-backtrack run of whitespace, to the furthest position that
is the end of the text or immediately precedes a `'\n'`.  Returns the
captured group, the unconsumed suffix, and whether the character before
that suffix is a `'\n'` (whether `^` holds there). -/
def matchAtCore (r1 : List Char) : Option (List Char × List Char × Bool) :=
  match bulletTrim r1 with
  | none => none
  | some r2 =>
    let r3 := r2.dropWhile isSpaceChar
    let line := r3.takeWhile (fun c => c ≠ '\n')
    let group := dropTrailingWs line
    let r3' := r3.drop group.length
    let run := r3'.takeWhile isSpaceChar
    let q := if (r3'.drop run.length).isEmpty then run.length
             else (lastNlIdx run).getD 0
    some (group, r3'.drop q, decide (1 ≤ q) && decide (run.getD (q - 1) ' ' = '\n'))

/-- Attempted match of the concept pattern at a `^` position whose suffix is
`s`; the pattern's leading `\s*` makes only `s.dropWhile isSpaceChar`
relevant. -/
def matchAt (s : List Char) : Option (List Char × List Char × Bool) :=
  matchAtCore (s.dropWhile isSpaceChar)

/-- Fuel-indexed scan of `re.findall` over the text: try the pattern at
every position where `^` holds (start of text or just after a `'\n'`),
emit each match's group and resume at the match end (matches are
non-overlapping and always consume at least the bullet character). -/
def scanF : Nat → Bool → List Char → List (List Char)
  | 0, _, _ => []
  | _ + 1, _, [] => []
  | fuel + 1, bol, c :: cs =>
    if bol then
      match matchAt (c :: cs) with
      | some (g, rest, b) => g :: scanF fuel b rest
      | none => scanF fuel (c = '\n') cs
    else scanF fuel (c = '\n') cs

/-- `re.findall(r"^\s*(?:[-*•]|\d+\.)\s*(.*?)\s*$", t, re.MULTILINE)`. -/
def findallConcepts (t : List Char) : List (List Char) :=
  scanF (t.length + 1) true t

/-- The result record `{'summary': ..., 'key_concepts': ...}`. -/
structure SummaryResult where
  summary : List Char
  key_concepts : List (List Char)
deriving DecidableEq, Repr

/-- `LlamaSummarizer._parse_llm_output`.  If both regex searches succeed the
summary is the stripped first group and the concepts are the stripped
non-empty findall groups; otherwise (and on any internal exception, which
the total model has none of) the whole raw output is returned as the
summary with no concepts. -/
def parse_llm_output (llm_output : List Char) : SummaryResult :=
  match summaryMatch llm_output, conceptsMatch llm_output with
  | some g1, some g2 =>
    { summary := pyStrip g1
      key_concepts := ((findallConcepts (pyStrip g2)).map pyStrip).filter
        (fun c => !c.isEmpty) }
  | _, _ => { summary := llm_output, key_concepts := [] }

example :
    parse_llm_output "FINAL SUMMARY:\nAlpha beta.\nKEY CONCEPTS:\n- one\n- two\n".toList =
      { summary := "Alpha beta.".toList
        key_concepts := ["one".toList, "two".toList] } := by decide

example :
    parse_llm_output "FINAL SUMMARY:ok KEY CONCEPTS:\n-\n- x".toList =
      { summary := "ok".toList, key_concepts := ["- x".toList] } := by decide

/-- Index of the first occurrence of `pat` as a contiguous sublist. -/
def findSub (pat : List Char) : List Char → Option Nat
  | [] => none
  | c :: cs =>
    if pat.isPrefixOf (c :: cs) then some 0 else ((findSub pat cs).map (· + 1))

/-- Modelled from the spec: splitting a text on a separator, one piece per
occurrence, keeping each separator attached to the end of the piece before
it so that regrouping pieces by plain concatenation re-assembles the text
(the spec's lossless re-assembly property).  Fuel-indexed (every step
consumes at least one character, so `text.length` fuel suffices; the
exhaustion case cannot be reached but is defined to preserve the same
invariants). -/
def splitKeepF (sep : List Char) : Nat → List Char → List (List Char)
  | 0, text => if text.isEmpty then [] else [text]
  | fuel + 1, text =>
    if text.isEmpty then []
    else if sep.isEmpty then [text]
    else
      match findSub sep text with
      | none => [text]
      | some i =>
        text.take (i + sep.length) :: splitKeepF sep fuel (text.drop (i + sep.length))

/-- Split on a separator, keeping separators (see `splitKeepF`). -/
def splitKeep (sep text : List Char) : List (List Char) :=
  splitKeepF sep text.length text

/-- Modelled from the spec: character-level slicing into pieces of at most
`n` characters, the finite base case of the recursive splitter. -/
def chunksOfF (n : Nat) : Nat → List Char → List (List Char)
  | 0, text => if text.isEmpty then [] else [text]
  | fuel + 1, text =>
    if text.isEmpty then []
    else if n = 0 then [text]
    else text.take n :: chunksOfF n fuel (text.drop n)

/-- Character-level slicing into pieces of at most `n` characters. -/
def chunksOf (n : Nat) (text : List Char) : List (List Char) :=
  chunksOfF n text.length text

/-- Modelled from the spec: greedy regrouping loop — concatenate adjacent
pieces while the group stays within `maxSize`, emitting the group when
adding the next piece would exceed the bound. -/
def mergeGo (maxSize : Nat) (acc : List Char) : List (List Char) → List (List Char)
  | [] => [acc]
  | p :: ps =>
    if acc.length + p.length ≤ maxSize then mergeGo maxSize (acc ++ p) ps
    else acc :: mergeGo maxSize p ps

/-- Greedy regrouping of pieces up to `maxSize` (see `mergeGo`). -/
def mergeGreedy (maxSize : Nat) : List (List Char) → List (List Char)
  | [] => []
  | p :: ps => mergeGo maxSize p ps

/-- Modelled from the spec: the recursive boundary-preferring split.  A text
within the bound is one chunk (empty text gives no chunk); otherwise split
on the coarsest remaining separator, recurse into finer separators for
pieces still too large, and greedily regroup; with no separators left,
fall through to character-level slicing. -/
def splitRec (maxSize : Nat) : List (List Char) → List Char → List (List Char)
  | [], text =>
    if text.isEmpty then []
    else if text.length ≤ maxSize then [text]
    else chunksOf maxSize text
  | sep :: rest, text =>
    if text.isEmpty then []
    else if text.length ≤ maxSize then [text]
    else
      mergeGreedy maxSize
        (((splitKeep sep text).map fun p =>
            if p.length ≤ maxSize then [p] else splitRec maxSize rest p).flatten)

/-- The separator hierarchy, coarsest to finest: paragraph break, line
break, space; character-level slicing is the base case of `splitRec`. -/
def defaultSeparators : List (List Char) :=
  [['\n', '\n'], ['\n'], [' ']]

/-- A produced chunk: its content, the offset of its non-overlapping
content within the original text, and its 0-based dense sequence index. -/
structure Chunk where
  content : List Char
  start_offset : Nat
  sequence_index : Nat
deriving DecidableEq, Repr

/-- The trailing `n` characters of `l` (all of `l` when `n ≥ l.length`). -/
def lastChars (n : Nat) (l : List Char) : List Char :=
  l.drop (l.length - n)

/-- Modelled from the spec: assemble chunks from the grouped cores, in
order, prefixing every chunk after the first with the trailing `overlap`
characters of the previous chunk's (non-overlapping) content, and
recording each core's offset and sequence index. -/
def buildChunks (overlap : Nat) : Nat → Nat → Option (List Char) → List (List Char) → List Chunk
  | _, _, _, [] => []
  | idx, off, prev, c :: cs =>
    { content := match prev with
        | none => c
        | some p => lastChars overlap p ++ c
      start_offset := off
      sequence_index := idx } :: buildChunks overlap (idx + 1) (off + c.length) (some c) cs

/-- Modelled from the spec: `Chunker.split` — the recursive splitter over
the default separator hierarchy followed by overlap application.  This is
the behavior of the `RecursiveCharacterTextSplitter(chunk_size=4000,
chunk_overlap=200, add_start_index=True)` configured in
`LlamaSummarizer.__init__`, whose implementation is not part of this
repository. -/
def splitText (maxSize overlap : Nat) (text : List Char) : List Chunk :=
  buildChunks overlap 0 0 none (splitRec maxSize defaultSeparators text)

/-- The claim's re-assembly operation: strip the overlap prefix from every
chunk content but the first (the prefix added to a chunk has length
`min overlap previousCore.length`, and each stripped chunk recovers the
core that the next prefix was taken from). -/
def stripChunks (overlap : Nat) : Option (List Char) → List (List Char) → List (List Char)
  | _, [] => []
  | none, c :: cs => c :: stripChunks overlap (some c) cs
  | some p, c :: cs =>
    (c.drop (min overlap p.length)) :: stripChunks overlap (some (c.drop (min overlap p.length))) cs

example :
    splitText 4 1 "ab cd ef".toList =
      [⟨"ab ".toList, 0, 0⟩, ⟨" cd ".toList, 3, 1⟩, ⟨" ef".toList, 6, 2⟩] := by decide

example :
    (stripChunks 1 none ((splitText 4 1 "ab cd ef".toList).map Chunk.content)).flatten
      = "ab cd ef".toList := by decide

/-- The article dictionary as `summarize` reads it: the three keys it
accesses, each possibly absent.  A missing dictionary (`None`/`{}`) is
represented by all fields absent, which takes the same branch in the
code. -/
structure ArticleData where
  title : Option (List Char)
  abstract : Option (List Char)
  full_text : Option (List Char)
deriving DecidableEq, Repr

/-- Python's `"\n\n".join`. -/
def joinParts : List (List Char) → List Char
  | [] => []
  | [p] => p
  | p :: q :: ps => p ++ '\n' :: '\n' :: joinParts (q :: ps)

/-- One conditional `text_parts.append(f"{label}{value}")`: the part is
present when the field is present and non-empty (Python truthiness). -/
def optPart (label : List Char) : Option (List Char) → List (List Char)
  | none => []
  | some s => if s.isEmpty then [] else [label ++ s]

/-- `LlamaSummarizer._prepare_input_text`: the labelled present fields,
joined with blank lines. -/
def prepare_input_text (a : ArticleData) : List Char :=
  joinParts
    (optPart "Title: ".toList a.title ++
     optPart "Abstract: ".toList a.abstract ++
     optPart "Full Text:\n".toList a.full_text)

/-- Outcome of `self.chain.invoke` as `summarize` consumes it: the
`output_text` of the result dictionary (absent defaults to the empty
string), or a raised exception carrying its type name. -/
inductive ChainOutcome where
  | ok : List Char → ChainOutcome
  | exn : List Char → ChainOutcome
deriving DecidableEq, Repr

/-- Which return statement of `summarize` produced the result (an
instrumentation tag of the embedding, not data of the code). -/
inductive SumPath where
  | insufficientData
  | emptyText
  | emptyOutput
  | chainError
  | parsed
deriving DecidableEq, Repr

/-- The chunk contents handed to the chain: `split_text` output, one
`Document.page_content` per chunk. -/
def chunkContents (a : ArticleData) : List (List Char) :=
  (splitText 4000 200 (prepare_input_text a)).map Chunk.content

/-- `LlamaSummarizer.summarize`, instrumented: given the text-completion
chain as an oracle over the chunk contents, returns the result record
together with the taken path and the number of chain invocations. -/
def summarizeI (chain : List (List Char) → ChainOutcome) (a : ArticleData) :
    SummaryResult × SumPath × Nat :=
  if (a.abstract.getD []).isEmpty then
    ({ summary := "Error: Insufficient article data provided for summarization.".toList
       key_concepts := [] }, SumPath.insufficientData, 0)
  else
    let input_text := prepare_input_text a
    if (pyStrip input_text).isEmpty then
      ({ summary := "Error: No text content available for summarization.".toList
         key_concepts := [] }, SumPath.emptyText, 0)
    else
      match chain (chunkContents a) with
      | ChainOutcome.exn nm =>
        ({ summary := "Error: Summarization failed due to an internal error (".toList
             ++ nm ++ ").".toList
           key_concepts := [] }, SumPath.chainError, 1)
      | ChainOutcome.ok out =>
        if out.isEmpty then
          ({ summary := "Error: Summarization process failed to produce output.".toList
             key_concepts := [] }, SumPath.emptyOutput, 1)
        else
          (parse_llm_output out, SumPath.parsed, 1)

/-- `LlamaSummarizer.summarize`: the returned dictionary. -/
def summarize (chain : List (List Char) → ChainOutcome) (a : ArticleData) : SummaryResult :=
  (summarizeI chain a).1

/-- The list of present fields of the claim of C7, read literally: the
fields' own values, in fixed order, without labels. -/
def presentFields (a : ArticleData) : List (List Char) :=
  (match a.title with | none => [] | some t => [t]) ++
  (match a.abstract with | none => [] | some s => [s]) ++
  (match a.full_text with | none => [] | some f => [f])

/-- The prepared text as the claim of C7 states it: the present fields
concatenated in fixed order separated by blank lines, nothing added. -/
def claimPrepared (a : ArticleData) : List Char :=
  joinParts (presentFields a)

/-- One labelled field of the amended C7: present and non-empty fields
carry their label. -/
def labeledField (label : List Char) (o : Option (List Char)) : Option (List Char) :=
  o.bind fun s => if s.isEmpty then none else some (label ++ s)

/-- The prepared text as the amended C7 states it: the present non-empty
fields, each prefixed by its label, in fixed order, joined by blank
lines. -/
def amendedPrepared (a : ArticleData) : List Char :=
  joinParts
    ([labeledField "Title: ".toList a.title,
      labeledField "Abstract: ".toList a.abstract,
      labeledField "Full Text:\n".toList a.full_text].filterMap id)

example :
    summarize (fun _ => ChainOutcome.ok "x".toList) ⟨none, none, none⟩ =
      { summary := "Error: Insufficient article data provided for summarization.".toList
        key_concepts := [] } := by decide

example :
    summarizeI (fun _ => ChainOutcome.ok "Error: fake".toList) ⟨none, some ['A'], none⟩ =
      ({ summary := "Error: fake".toList, key_concepts := [] }, SumPath.parsed, 1) := by decide

lemma isPrefixOf_append_left (p l m : List Char) (h : p.isPrefixOf l = true) :
    p.isPrefixOf (l ++ m) = true := by
  induction p generalizing l with
  | nil => simp [List.isPrefixOf]
  | cons c cs ih =>
    cases l with
    | nil => simp [List.isPrefixOf] at h
    | cons d ds =>
      simp only [List.cons_append, List.isPrefixOf, Bool.and_eq_true, beq_iff_eq] at h ⊢
      exact ⟨h.1, ih ds h.2⟩

lemma mem_joinParts {x : Char} {p : List Char} {parts : List (List Char)}
    (hx : x ∈ p) (hp : p ∈ parts) : x ∈ joinParts parts := by
  induction parts with
  | nil => simp at hp
  | cons q qs ih =>
    cases qs with
    | nil =>
      simp at hp
      subst hp
      simpa [joinParts] using hx
    | cons r rs =>
      rcases List.mem_cons.mp hp with h | h
      · subst h
        simp [joinParts, hx]
      · simp [joinParts, ih h]

lemma mem_dropWhile_of_not {p : Char → Bool} {c : Char} {l : List Char}
    (hc : c ∈ l) (hp : p c = false) : c ∈ l.dropWhile p := by
  induction l with
  | nil => simp at hc
  | cons d ds ih =>
    by_cases hd : p d = true
    · rw [List.dropWhile_cons_of_pos hd]
      rcases List.mem_cons.mp hc with h | h
      · subst h; simp [hd] at hp
      · exact ih h
    · rw [List.dropWhile_cons_of_neg hd]
      exact hc

lemma dropWhile_eq_nil_all {p : Char → Bool} {l : List Char}
    (h : l.dropWhile p = []) : ∀ c ∈ l, p c = true := by
  induction l with
  | nil => simp
  | cons d ds ih =>
    intro c hc
    by_cases hd : p d = true
    · rw [List.dropWhile_cons_of_pos hd] at h
      rcases List.mem_cons.mp hc with hcd | hcd
      · subst hcd; exact hd
      · exact ih h c hcd
    · rw [List.dropWhile_cons_of_neg hd] at h
      simp at h

lemma pyStrip_ne_nil_of_mem {c : Char} {l : List Char}
    (hc : c ∈ l) (hns : isSpaceChar c = false) : (pyStrip l).isEmpty = false := by
  rw [Bool.eq_false_iff]
  intro habs
  rw [List.isEmpty_iff] at habs
  unfold pyStrip dropTrailingWs at habs
  have h1 : c ∈ l.dropWhile isSpaceChar := mem_dropWhile_of_not hc hns
  have h2 : (l.dropWhile isSpaceChar).reverse.dropWhile isSpaceChar = [] := by
    have := congrArg List.reverse habs
    simpa using this
  have h3 := dropWhile_eq_nil_all h2 c (by simpa using h1)
  rw [h3] at hns
  cases hns

lemma pyStrip_prepared_nonempty (a : ArticleData)
    (h : (a.abstract.getD []).isEmpty = false) :
    (pyStrip (prepare_input_text a)).isEmpty = false := by
  rcases ha : a.abstract with _ | s
  · rw [ha] at h; simp at h
  · rw [ha] at h
    simp only [Option.getD] at h
    have hs : s.isEmpty = false := h
    have hmemA : 'A' ∈ "Abstract: ".toList ++ s := by
      simp
    have hpart : ("Abstract: ".toList ++ s) ∈
        (optPart "Title: ".toList a.title ++
         optPart "Abstract: ".toList a.abstract ++
         optPart "Full Text:\n".toList a.full_text) := by
      rw [ha]
      simp [optPart, hs]
    exact pyStrip_ne_nil_of_mem (mem_joinParts hmemA hpart) (by decide)

/-- Claim C1: if either the case-insensitive `FINAL SUMMARY:` marker or the
case-insensitive `KEY CONCEPTS:` marker does not occur in the raw string,
the parser returns the whole raw input verbatim as the summary and the
empty concept list (the total model also witnesses that parsing never
raises). -/
theorem c1_theorem (raw : List Char)
    (h : findCI finalMarker raw = none ∨ findCI keyMarker raw = none) :
    parse_llm_output raw = { summary := raw, key_concepts := [] } := by
  rcases h with h | h
  · have hsm : summaryMatch raw = none := by simp [summaryMatch, h]
    cases hcm : conceptsMatch raw <;> simp [parse_llm_output, hsm, hcm]
  · have hcm : conceptsMatch raw = none := by simp [conceptsMatch, h]
    cases hsm : summaryMatch raw <;> simp [parse_llm_output, hsm, hcm]

/-- Witness for C1 at the concrete markerless input `"just some text"`. -/
theorem c1_witness :
    (findCI finalMarker "just some text".toList = none ∨
      findCI keyMarker "just some text".toList = none) ∧
    parse_llm_output "just some text".toList =
      { summary := "just some text".toList, key_concepts := [] } :=
  ⟨Or.inl (by decide), c1_theorem _ (Or.inl (by decide))⟩

/-- Claim C2: the parser applied to the well-formed string
`"FINAL SUMMARY:\nAlpha beta.\nKEY CONCEPTS:\n- one\n- two\n"` yields the
summary `"Alpha beta."` and the key concepts `["one", "two"]`. -/
theorem c2_theorem :
    parse_llm_output "FINAL SUMMARY:\nAlpha beta.\nKEY CONCEPTS:\n- one\n- two\n".toList =
      { summary := "Alpha beta.".toList
        key_concepts := ["one".toList, "two".toList] } := by decide

/-- Claim C3: when the abstract is absent or empty (which also covers an
altogether empty article dictionary), `summarize` returns the
insufficient-data error record and performs no chain invocation. -/
theorem c3_theorem (chain : List (List Char) → ChainOutcome) (a : ArticleData)
    (h : a.abstract = none ∨ a.abstract = some []) :
    summarizeI chain a =
      ({ summary := "Error: Insufficient article data provided for summarization.".toList
         key_concepts := [] }, SumPath.insufficientData, 0) := by
  rcases h with h | h <;> simp [summarizeI, h]

/-- Witness for C3 at an article with no fields at all. -/
theorem c3_witness :
    summarizeI (fun _ => ChainOutcome.ok ['x']) ⟨none, none, none⟩ =
      ({ summary := "Error: Insufficient article data provided for summarization.".toList
         key_concepts := [] }, SumPath.insufficientData, 0) :=
  c3_theorem _ _ (Or.inl rfl)

/-- Counterexample to C7 as stated: with title `"T"` and abstract `"A"` the
code prepares `"Title: T\n\nAbstract: A"`, not the bare concatenation
`"T\n\nA"` of the present fields — field labels are added. -/
theorem c7_counterexample :
    prepare_input_text ⟨some ['T'], some ['A'], none⟩ ≠
      claimPrepared ⟨some ['T'], some ['A'], none⟩ := by decide

/-- Amended C7: the prepared input text is the present **non-empty** fields
among title, abstract, full text, in that fixed order, each prefixed with
its label (`"Title: "`, `"Abstract: "`, `"Full Text:"` plus a newline),
joined by blank lines. -/
theorem c7_theorem (a : ArticleData) : prepare_input_text a = amendedPrepared a := by
  rcases a with ⟨t, ab, ft⟩
  cases t <;> cases ab <;> cases ft <;>
    simp [prepare_input_text, amendedPrepared, optPart, labeledField] <;>
    split_ifs <;> simp

/-- Counterexample to C10 as stated: a successful run (the chain answered
and its output was parsed) can return a summary that begins with
`"Error:"` — here the chain output `"Error: fake"` has no markers, so the
fallback returns it verbatim — hence the prefix does not let a caller
distinguish failure from success. -/
theorem c10_counterexample :
    summarizeI (fun _ => ChainOutcome.ok "Error: fake".toList) ⟨none, some ['A'], none⟩ =
      ({ summary := "Error: fake".toList, key_concepts := [] }, SumPath.parsed, 1) ∧
    "Error:".toList.isPrefixOf "Error: fake".toList = true := by decide

/-- Amended C10: every result of `summarize` is a record with exactly the
fields `summary` and `key_concepts` (by the result type), and on every
failure path — every path other than a parsed chain output — the summary
begins with `"Error:"` and the concept list is empty; the prefix alone,
however, does not distinguish failure from success. -/
theorem c10_theorem (chain : List (List Char) → ChainOutcome) (a : ArticleData)
    (h : (summarizeI chain a).2.1 ≠ SumPath.parsed) :
    "Error:".toList.isPrefixOf (summarizeI chain a).1.summary = true ∧
      (summarizeI chain a).1.key_concepts = [] := by
  by_cases h1 : (a.abstract.getD []).isEmpty
  · simp [summarizeI, h1]
  · by_cases h2 : (pyStrip (prepare_input_text a)).isEmpty
    · simp [summarizeI, h1, h2]
    · rcases hc : chain (chunkContents a) with out | nm
      · by_cases h3 : out.isEmpty
        · simp [summarizeI, h1, h2, hc, h3]
        · exfalso
          apply h
          simp [summarizeI, h1, h2, hc, h3]
      · refine ⟨?_, by simp [summarizeI, h1, h2, hc]⟩
        have : (summarizeI chain a).1.summary =
            "Error: Summarization failed due to an internal error (".toList
              ++ (nm ++ ").".toList) := by
          simp [summarizeI, h1, h2, hc]
        rw [this]
        exact isPrefixOf_append_left _ _ _ (by decide)

/-- Witness for amended C10 on the empty-chain-output failure path. -/
theorem c10_witness :
    "Error:".toList.isPrefixOf
        (summarizeI (fun _ => ChainOutcome.ok []) ⟨none, some ['A'], none⟩).1.summary = true ∧
      (summarizeI (fun _ => ChainOutcome.ok []) ⟨none, some ['A'], none⟩).1.key_concepts = [] :=
  c10_theorem _ _ (by decide)

/-- Counterexample to C5 as stated: the empty text has length at most any
`max_chunk_size`, yet the splitter returns no chunk at all rather than a
single chunk. -/
theorem c5_counterexample : (splitText 5 1 ([] : List Char)).length ≠ 1 := by decide

/-- Amended C5: for every **non-empty** text of length at most
`max_chunk_size`, the splitter returns exactly one chunk whose content is
the whole text, with start offset 0 (and sequence index 0). -/
theorem c5_theorem (maxSize overlap : Nat) (text : List Char)
    (hne : text ≠ []) (hle : text.length ≤ maxSize) :
    splitText maxSize overlap text = [⟨text, 0, 0⟩] := by
  have hemp : text.isEmpty = false := by simpa [List.isEmpty_iff] using hne
  simp [splitText, defaultSeparators, splitRec, hemp, hle, buildChunks]

/-- Witness for amended C5 at `"ab"` with `max_chunk_size = 5`. -/
theorem c5_witness : splitText 5 1 "ab".toList = [⟨"ab".toList, 0, 0⟩] :=
  c5_theorem 5 1 _ (by decide) (by decide)

/-- Claim C8: once the chain is reached (non-empty abstract), an exception
from the chain or an empty chain output is returned to the caller as the
corresponding error-as-data record with empty key concepts — never as a
propagated exception (the model is total by construction). -/
theorem c8_theorem (chain : List (List Char) → ChainOutcome) (a : ArticleData)
    (nm : List Char) (h : (a.abstract.getD []).isEmpty = false) :
    (chain (chunkContents a) = ChainOutcome.exn nm →
      summarizeI chain a =
        ({ summary := "Error: Summarization failed due to an internal error (".toList
             ++ nm ++ ").".toList
           key_concepts := [] }, SumPath.chainError, 1)) ∧
    (chain (chunkContents a) = ChainOutcome.ok [] →
      summarizeI chain a =
        ({ summary := "Error: Summarization process failed to produce output.".toList
           key_concepts := [] }, SumPath.emptyOutput, 1)) := by
  have h2 := pyStrip_prepared_nonempty a h
  constructor <;> intro hc <;> simp [summarizeI, h, h2, hc]

/-- Witness for C8: a chain that raises `ValueError` on an article with
abstract `"A"`. -/
theorem c8_witness :
    summarizeI (fun _ => ChainOutcome.exn "ValueError".toList) ⟨none, some ['A'], none⟩ =
      ({ summary :=
           "Error: Summarization failed due to an internal error (ValueError).".toList
         key_concepts := [] }, SumPath.chainError, 1) :=
  (c8_theorem _ _ "ValueError".toList (by decide)).1 rfl

lemma splitKeepF_flatten (sep : List Char) (fuel : Nat) :
    ∀ text, (splitKeepF sep fuel text).flatten = text := by
  induction fuel with
  | zero =>
    intro text
    simp only [splitKeepF]
    split_ifs with h
    · simp [List.isEmpty_iff.mp h]
    · simp
  | succ n ih =>
    intro text
    simp only [splitKeepF]
    split_ifs with h1 h2
    · simp [List.isEmpty_iff.mp h1]
    · simp
    · cases hfs : findSub sep text with
      | none => simp
      | some i => simp [ih, List.take_append_drop]

lemma splitKeepF_ne_nil (sep : List Char) (fuel : Nat) :
    ∀ text p, p ∈ splitKeepF sep fuel text → p ≠ [] := by
  induction fuel with
  | zero =>
    intro text p hp
    simp only [splitKeepF] at hp
    split_ifs at hp with h
    · simp at hp
    · simp at hp
      subst hp
      simpa [List.isEmpty_iff] using h
  | succ n ih =>
    intro text p hp
    simp only [splitKeepF] at hp
    split_ifs at hp with h1 h2
    · simp at hp
    · simp at hp
      subst hp
      simpa [List.isEmpty_iff] using h1
    · cases hfs : findSub sep text with
      | none =>
        rw [hfs] at hp
        simp at hp
        subst hp
        simpa [List.isEmpty_iff] using h1
      | some i =>
        rw [hfs] at hp
        rcases List.mem_cons.mp hp with h | h
        · subst h
          have hsep : sep.length ≠ 0 := by
            simpa [List.isEmpty_iff, List.length_eq_zero] using h2
          have htext : text.length ≠ 0 := by
            simpa [List.isEmpty_iff, List.length_eq_zero] using h1
          apply List.ne_nil_of_length_pos
          rw [List.length_take]
          omega
        · exact ih _ p h

lemma chunksOfF_flatten (n fuel : Nat) :
    ∀ text, (chunksOfF n fuel text).flatten = text := by
  induction fuel with
  | zero =>
    intro text
    simp only [chunksOfF]
    split_ifs with h
    · simp [List.isEmpty_iff.mp h]
    · simp
  | succ k ih =>
    intro text
    simp only [chunksOfF]
    split_ifs with h1 h2
    · simp [List.isEmpty_iff.mp h1]
    · simp
    · simp [ih, List.take_append_drop]

lemma chunksOfF_sizes (n fuel : Nat) (hn : 1 ≤ n) :
    ∀ text, text.length ≤ fuel → ∀ c ∈ chunksOfF n fuel text, c.length ≤ n := by
  induction fuel with
  | zero =>
    intro text hlen c hc
    have : text = [] := List.length_eq_zero.mp (Nat.le_zero.mp hlen)
    subst this
    simp [chunksOfF] at hc
  | succ k ih =>
    intro text hlen c hc
    simp only [chunksOfF] at hc
    split_ifs at hc with h1 h2
    · simp at hc
    · omega
    · rcases List.mem_cons.mp hc with h | h
      · subst h
        simp
      · exact ih _ (by simp; omega) c h

lemma chunksOfF_ne_nil (n fuel : Nat) :
    ∀ text c, c ∈ chunksOfF n fuel text → c ≠ [] := by
  induction fuel with
  | zero =>
    intro text c hc
    simp only [chunksOfF] at hc
    split_ifs at hc with h
    · simp at hc
    · simp at hc
      subst hc
      simpa [List.isEmpty_iff] using h
  | succ k ih =>
    intro text c hc
    simp only [chunksOfF] at hc
    split_ifs at hc with h1 h2
    · simp at hc
    · simp at hc
      subst hc
      simpa [List.isEmpty_iff] using h1
    · rcases List.mem_cons.mp hc with h | h
      · subst h
        have htext : text ≠ [] := by simpa [List.isEmpty_iff] using h1
        simp [List.take_eq_nil_iff, htext]
        omega
      · exact ih _ c h

lemma mergeGo_flatten (m : Nat) :
    ∀ ps acc, (mergeGo m acc ps).flatten = acc ++ ps.flatten := by
  intro ps
  induction ps with
  | nil => intro acc; simp [mergeGo]
  | cons p ps ih =>
    intro acc
    simp only [mergeGo]
    split_ifs with h
    · simp [ih]
    · simp [ih]

lemma mergeGo_sizes (m : Nat) :
    ∀ ps acc, acc.length ≤ m → (∀ p ∈ ps, p.length ≤ m) →
      ∀ q ∈ mergeGo m acc ps, q.length ≤ m := by
  intro ps
  induction ps with
  | nil =>
    intro acc hacc _ q hq
    simp [mergeGo] at hq
    subst hq
    exact hacc
  | cons p ps ih =>
    intro acc hacc hps q hq
    simp only [mergeGo] at hq
    split_ifs at hq with h
    · exact ih _ (by simpa using h) (fun r hr => hps r (by simp [hr])) q hq
    · rcases List.mem_cons.mp hq with h | h
      · subst h; exact hacc
      · exact ih _ (hps p (by simp)) (fun r hr => hps r (by simp [hr])) q h

lemma mergeGo_ne_nil (m : Nat) :
    ∀ ps acc, acc ≠ [] → (∀ p ∈ ps, p ≠ []) →
      ∀ q ∈ mergeGo m acc ps, q ≠ [] := by
  intro ps
  induction ps with
  | nil =>
    intro acc hacc _ q hq
    simp [mergeGo] at hq
    subst hq
    exact hacc
  | cons p ps ih =>
    intro acc hacc hps q hq
    simp only [mergeGo] at hq
    split_ifs at hq with h
    · exact ih _ (by simp [hacc]) (fun r hr => hps r (by simp [hr])) q hq
    · rcases List.mem_cons.mp hq with h | h
      · subst h; exact hacc
      · exact ih _ (hps p (by simp)) (fun r hr => hps r (by simp [hr])) q h

lemma mergeGreedy_flatten (m : Nat) (ps : List (List Char)) :
    (mergeGreedy m ps).flatten = ps.flatten := by
  cases ps with
  | nil => simp [mergeGreedy]
  | cons p ps => simp [mergeGreedy, mergeGo_flatten]

lemma mergeGreedy_sizes (m : Nat) (ps : List (List Char))
    (hps : ∀ p ∈ ps, p.length ≤ m) : ∀ q ∈ mergeGreedy m ps, q.length ≤ m := by
  cases ps with
  | nil => simp [mergeGreedy]
  | cons p ps =>
    exact mergeGo_sizes m ps p (hps p (by simp)) (fun r hr => hps r (by simp [hr]))

lemma mergeGreedy_ne_nil (m : Nat) (ps : List (List Char))
    (hps : ∀ p ∈ ps, p ≠ []) : ∀ q ∈ mergeGreedy m ps, q ≠ [] := by
  cases ps with
  | nil => simp [mergeGreedy]
  | cons p ps =>
    exact mergeGo_ne_nil m ps p (hps p (by simp)) (fun r hr => hps r (by simp [hr]))

lemma splitRec_flatten (m : Nat) :
    ∀ seps text, (splitRec m seps text).flatten = text := by
  intro seps
  induction seps with
  | nil =>
    intro text
    simp only [splitRec]
    split_ifs with h1 h2
    · simp [List.isEmpty_iff.mp h1]
    · simp
    · exact chunksOfF_flatten m text.length text
  | cons sep rest ih =>
    intro text
    simp only [splitRec]
    split_ifs with h1 h2
    · simp [List.isEmpty_iff.mp h1]
    · simp
    · rw [mergeGreedy_flatten]
      have haux : ∀ l : List (List Char),
          ((l.map fun p => if p.length ≤ m then [p] else splitRec m rest p).flatten).flatten
            = l.flatten := by
        intro l
        induction l with
        | nil => simp
        | cons p ps ihl =>
          simp only [List.map_cons, List.flatten_cons, List.flatten_append, ihl]
          split_ifs with hp
          · simp
          · simp [ih p]
      rw [haux]
      exact splitKeepF_flatten sep text.length text

lemma splitRec_sizes (m : Nat) (hm : 1 ≤ m) :
    ∀ seps text c, c ∈ splitRec m seps text → c.length ≤ m := by
  intro seps
  induction seps with
  | nil =>
    intro text c hc
    simp only [splitRec] at hc
    split_ifs at hc with h1 h2
    · simp at hc
    · simp at hc
      subst hc
      exact h2
    · exact chunksOfF_sizes m text.length hm text (le_refl _) c hc
  | cons sep rest ih =>
    intro text c hc
    simp only [splitRec] at hc
    split_ifs at hc with h1 h2
    · simp at hc
    · simp at hc
      subst hc
      exact h2
    · refine mergeGreedy_sizes m _ ?_ c hc
      intro p hp
      rcases List.mem_flatten.mp hp with ⟨piece, hpiece, hmem⟩
      rcases List.mem_map.mp hpiece with ⟨q, hq, hfq⟩
      by_cases hql : q.length ≤ m
      · rw [← hfq] at hmem
        simp [hql] at hmem
        subst hmem
        exact hql
      · rw [← hfq] at hmem
        simp [hql] at hmem
        exact ih q p hmem

lemma splitRec_ne_nil (m : Nat) :
    ∀ seps text c, c ∈ splitRec m seps text → c ≠ [] := by
  intro seps
  induction seps with
  | nil =>
    intro text c hc
    simp only [splitRec] at hc
    split_ifs at hc with h1 h2
    · simp at hc
    · simp at hc
      subst hc
      simpa [List.isEmpty_iff] using h1
    · exact chunksOfF_ne_nil m text.length text c hc
  | cons sep rest ih =>
    intro text c hc
    simp only [splitRec] at hc
    split_ifs at hc with h1 h2
    · simp at hc
    · simp at hc
      subst hc
      simpa [List.isEmpty_iff] using h1
    · refine mergeGreedy_ne_nil m _ ?_ c hc
      intro p hp
      rcases List.mem_flatten.mp hp with ⟨piece, hpiece, hmem⟩
      rcases List.mem_map.mp hpiece with ⟨q, hq, hfq⟩
      by_cases hql : q.length ≤ m
      · rw [← hfq] at hmem
        simp [hql] at hmem
        subst hmem
        exact splitKeepF_ne_nil sep text.length text _ hq
      · rw [← hfq] at hmem
        simp [hql] at hmem
        exact ih q p hmem

lemma lastChars_length (n : Nat) (l : List Char) :
    (lastChars n l).length = min n l.length := by
  simp [lastChars]
  omega

lemma lastChars_le (n : Nat) (l : List Char) : (lastChars n l).length ≤ n := by
  rw [lastChars_length]
  omega

lemma strip_build_some (ov : Nat) :
    ∀ cores idx off p,
      stripChunks ov (some p)
        ((buildChunks ov idx off (some p) cores).map Chunk.content) = cores := by
  intro cores
  induction cores with
  | nil => intro idx off p; simp [buildChunks, stripChunks]
  | cons c cs ih =>
    intro idx off p
    simp only [buildChunks, List.map_cons, stripChunks]
    have hdrop : (lastChars ov p ++ c).drop (min ov p.length) = c := by
      have hlen : (lastChars ov p).length = min ov p.length := lastChars_length ov p
      rw [← hlen, List.drop_left]
    rw [hdrop]
    exact congrArg (c :: ·) (ih (idx + 1) (off + c.length) c)

lemma strip_build_none (ov : Nat) (cores : List (List Char)) :
    ∀ idx off,
      stripChunks ov none ((buildChunks ov idx off none cores).map Chunk.content) = cores := by
  intro idx off
  cases cores with
  | nil => simp [buildChunks, stripChunks]
  | cons c cs =>
    simp only [buildChunks, List.map_cons, stripChunks]
    exact congrArg (c :: ·) (strip_build_some ov cs (idx + 1) (off + c.length) c)

/-- Claim C4: stripping the overlap prefix from every chunk but the first
and concatenating the contents reconstructs the input text exactly, for
every text and every parameter pair (lossless re-assembly). -/
theorem c4_theorem (maxSize overlap : Nat) (text : List Char) :
    (stripChunks overlap none ((splitText maxSize overlap text).map Chunk.content)).flatten
      = text := by
  unfold splitText
  rw [strip_build_none]
  exact splitRec_flatten maxSize defaultSeparators text

lemma buildChunks_content (ov m : Nat) :
    ∀ cores idx off op, (∀ c ∈ cores, c.length ≤ m ∧ c ≠ []) →
      ∀ ch ∈ buildChunks ov idx off op cores,
        ch.content.length ≤ m + ov ∧ ch.content ≠ [] := by
  intro cores
  induction cores with
  | nil => intro idx off op _ ch hch; simp [buildChunks] at hch
  | cons c cs ih =>
    intro idx off op hcores ch hch
    simp only [buildChunks] at hch
    rcases List.mem_cons.mp hch with h | h
    · subst h
      rcases hcores c (by simp) with ⟨hlen, hne⟩
      cases op with
      | none => exact ⟨by simpa using Nat.le_add_right_of_le hlen, by simpa using hne⟩
      | some p =>
        constructor
        · simp only [List.length_append]
          have := lastChars_le ov p
          omega
        · simp [hne]
    · exact ih (idx + 1) (off + c.length) (some c)
        (fun r hr => hcores r (by simp [hr])) ch h

/-- Claim C6: for valid parameters (`overlap < max_chunk_size`), every
produced chunk has content length at most `max_chunk_size + overlap`, and
no chunk content is empty (when the text is empty there are no chunks at
all). -/
theorem c6_theorem (maxSize overlap : Nat) (text : List Char)
    (h : overlap < maxSize) :
    ∀ c ∈ splitText maxSize overlap text,
      c.content.length ≤ maxSize + overlap ∧ c.content ≠ [] := by
  have hm : 1 ≤ maxSize := by omega
  refine buildChunks_content overlap maxSize _ 0 0 none ?_
  intro c hc
  exact ⟨splitRec_sizes maxSize hm defaultSeparators text c hc,
    splitRec_ne_nil maxSize defaultSeparators text c hc⟩

/-- Witness for C6 at `"ab cd ef"` with sizes `(5, 1)`. -/
theorem c6_witness :
    (1 < 5) ∧ ∀ c ∈ splitText 5 1 "ab cd ef".toList,
      c.content.length ≤ 5 + 1 ∧ c.content ≠ [] :=
  ⟨by decide, c6_theorem 5 1 _ (by decide)⟩

/-- Split a text into its `'\n'`-separated lines (one more line than there
are newline characters). -/
def splitOnNl : List Char → List (List Char)
  | [] => [[]]
  | c :: cs =>
    if c = '\n' then [] :: splitOnNl cs
    else
      match splitOnNl cs with
      | [] => [[c]]
      | l :: ls => (c :: l) :: ls

/-- Join lines with `'\n'`, the inverse of `splitOnNl`. -/
def joinNl : List (List Char) → List Char
  | [] => []
  | [l] => l
  | l :: l2 :: ls => l ++ '\n' :: joinNl (l2 :: ls)

/-- The extraction the claim of C9 describes for one line: if the line
begins (after leading whitespace) with a bullet or numeric-dot marker, its
concept is the text after the marker with surrounding whitespace trimmed,
discarded when blank. -/
def lineConcept (l : List Char) : Option (List Char) :=
  match bulletTrim (l.dropWhile isSpaceChar) with
  | none => none
  | some r => if (pyStrip r).isEmpty then none else some (pyStrip r)

/-- A line is good when it is not a marker line with only whitespace after
its marker (the situation that makes the findall pattern spill onto the
next line). -/
def goodLine (l : List Char) : Bool :=
  match bulletTrim (l.dropWhile isSpaceChar) with
  | none => true
  | some r => !(pyStrip r).isEmpty

/-- The key-concept list as the claim of C9 states it: the per-line
extraction over the lines of the concepts section, in order. -/
def specKeyConcepts (t : List Char) : List (List Char) :=
  (splitOnNl t).filterMap lineConcept

/-- A line consisting of whitespace only. -/
def isBlankLine (l : List Char) : Bool :=
  (l.dropWhile isSpaceChar).isEmpty

lemma splitOnNl_ne_nil (t : List Char) : splitOnNl t ≠ [] := by
  cases t with
  | nil => simp [splitOnNl]
  | cons c cs =>
    simp only [splitOnNl]
    split_ifs
    · simp
    · cases splitOnNl cs <;> simp

lemma joinNl_cons (l : List Char) (L : List (List Char)) (h : L ≠ []) :
    joinNl (l :: L) = l ++ '\n' :: joinNl L := by
  cases L with
  | nil => simp at h
  | cons l2 ls => rfl

lemma joinNl_splitOnNl : ∀ t, joinNl (splitOnNl t) = t := by
  intro t
  induction t with
  | nil => simp [splitOnNl, joinNl]
  | cons c cs ih =>
    simp only [splitOnNl]
    split_ifs with hc
    · subst hc
      rw [joinNl_cons _ _ (splitOnNl_ne_nil cs), ih]
      simp
    · cases hs : splitOnNl cs with
      | nil => exact absurd hs (splitOnNl_ne_nil cs)
      | cons l ls =>
        rw [hs] at ih
        cases ls with
        | nil =>
          simp only [joinNl] at ih ⊢
          rw [ih]
        | cons l2 ls2 =>
          simp only [joinNl] at ih ⊢
          rw [List.cons_append, ih]

lemma splitOnNl_no_nl : ∀ t l, l ∈ splitOnNl t → '\n' ∉ l := by
  intro t
  induction t with
  | nil => intro l hl; simp [splitOnNl] at hl; simp [hl]
  | cons c cs ih =>
    intro l hl
    simp only [splitOnNl] at hl
    split_ifs at hl with hc
    · rcases List.mem_cons.mp hl with h | h
      · simp [h]
      · exact ih l h
    · cases hs : splitOnNl cs with
      | nil => exact absurd hs (splitOnNl_ne_nil cs)
      | cons m ms =>
        rw [hs] at hl
        rcases List.mem_cons.mp hl with h | h
        · subst h
          intro habs
          rcases List.mem_cons.mp habs with h2 | h2
          · exact hc h2.symm
          · exact ih m (by rw [hs]; exact List.mem_cons_self m ms) h2
        · exact ih l (by rw [hs]; exact List.mem_cons_of_mem m h)

lemma takeWhile_append_stop {α : Type} (p : α → Bool) :
    ∀ (l s : List α), l.dropWhile p ≠ [] →
      (l ++ s).takeWhile p = l.takeWhile p ∧ (l ++ s).dropWhile p = l.dropWhile p ++ s := by
  intro l
  induction l with
  | nil => intro s h; simp at h
  | cons c cs ih =>
    intro s h
    by_cases hc : p c
    · rw [List.dropWhile_cons_of_pos hc] at h
      rcases ih s h with ⟨h1, h2⟩
      constructor
      · rw [List.cons_append, List.takeWhile_cons_of_pos hc,
          List.takeWhile_cons_of_pos hc, h1]
      · rw [List.cons_append, List.dropWhile_cons_of_pos hc,
          List.dropWhile_cons_of_pos hc, h2]
    · rw [Bool.not_eq_true] at hc
      constructor
      · rw [List.cons_append, List.takeWhile_cons_of_neg (by simp [hc]),
          List.takeWhile_cons_of_neg (by simp [hc])]
      · rw [List.cons_append, List.dropWhile_cons_of_neg (by simp [hc]),
          List.dropWhile_cons_of_neg (by simp [hc]), List.cons_append]

lemma takeWhile_append_all {α : Type} (p : α → Bool) :
    ∀ (l s : List α), (∀ c ∈ l, p c = true) →
      (l ++ s).takeWhile p = l ++ s.takeWhile p ∧ (l ++ s).dropWhile p = s.dropWhile p := by
  intro l
  induction l with
  | nil => intro s _; simp
  | cons c cs ih =>
    intro s h
    have hc : p c = true := h c (by simp)
    rcases ih s (fun d hd => h d (by simp [hd])) with ⟨h1, h2⟩
    constructor
    · rw [List.cons_append, List.takeWhile_cons_of_pos hc, h1, List.cons_append]
    · rw [List.cons_append, List.dropWhile_cons_of_pos hc, h2]

lemma takeWhile_append_break {α : Type} (p : α → Bool) (l : List α) (d : α) (s : List α)
    (hl : ∀ c ∈ l, p c = true) (hd : p d = false) :
    (l ++ d :: s).takeWhile p = l := by
  rcases takeWhile_append_all p l (d :: s) hl with ⟨h1, _⟩
  rw [h1, List.takeWhile_cons_of_neg (by simp [hd])]
  simp

lemma dropWhile_head_not {α : Type} (p : α → Bool) :
    ∀ (l : List α) (c : α) (cs : List α), l.dropWhile p = c :: cs → p c = false := by
  intro l
  induction l with
  | nil => intro c cs h; simp at h
  | cons d ds ih =>
    intro c cs h
    by_cases hd : p d
    · rw [List.dropWhile_cons_of_pos hd] at h
      exact ih c cs h
    · rw [List.dropWhile_cons_of_neg hd] at h
      cases h
      simpa using hd

lemma drop_takeWhile_length {α : Type} (p : α → Bool) (l : List α) :
    l.drop (l.takeWhile p).length = l.dropWhile p := by
  induction l with
  | nil => simp
  | cons c cs ih =>
    by_cases hc : p c
    · rw [List.takeWhile_cons_of_pos hc, List.dropWhile_cons_of_pos hc]
      simpa using ih
    · rw [List.takeWhile_cons_of_neg hc, List.dropWhile_cons_of_neg hc]
      simp

lemma lastNlIdx_none : ∀ u : List Char, (∀ c ∈ u, c ≠ '\n') → lastNlIdx u = none := by
  intro u
  induction u with
  | nil => intro _; rfl
  | cons c cs ih =>
    intro h
    simp only [lastNlIdx, ih (fun d hd => h d (by simp [hd]))]
    simp [h c (by simp)]

lemma lastNlIdx_append_some (w v : List Char) (j : Nat) (h : lastNlIdx v = some j) :
    lastNlIdx (w ++ v) = some (w.length + j) := by
  induction w with
  | nil => simpa using h
  | cons c cs ih =>
    rw [List.cons_append]
    simp only [lastNlIdx, ih]
    simp only [Option.some.injEq, List.length_cons]
    omega

lemma takeWhile_nil_head {α : Type} (p : α → Bool) (c : α) (cs : List α)
    (h : (c :: cs).takeWhile p = []) : p c = false := by
  by_cases hc : p c
  · rw [List.takeWhile_cons_of_pos hc] at h
    simp at h
  · simpa using hc

lemma bulletTrim_bullet (c : Char) (cs : List Char)
    (h : (c = '-' || c = '*' || c = Char.ofNat 8226) = true) :
    bulletTrim (c :: cs) = some cs := by
  simp only [bulletTrim, h, if_true]

lemma bulletTrim_digits (ds r : List Char) (hne : ds ≠ [])
    (hd : ∀ d ∈ ds, isDigitChar d = true) :
    bulletTrim (ds ++ '.' :: r) = some r := by
  cases ds with
  | nil => simp at hne
  | cons d ds2 =>
    have hdd : isDigitChar d = true := hd d (by simp)
    have hnotbul : (d = '-' || d = '*' || d = Char.ofNat 8226) = false := by
      rw [Bool.eq_false_iff]
      intro habs
      simp only [Bool.or_eq_true, decide_eq_true_eq] at habs
      rcases habs with (h1 | h1) | h1 <;> subst h1 <;> exact absurd hdd (by decide)
    have htw : ((d :: ds2) ++ '.' :: r).takeWhile isDigitChar = d :: ds2 :=
      takeWhile_append_break isDigitChar (d :: ds2) '.' r hd (by decide)
    rw [List.cons_append]
    simp only [bulletTrim, hnotbul, if_false]
    rw [← List.cons_append, htw]
    simp only [List.isEmpty_cons, Bool.false_eq_true, if_false]
    have hdrop : ((d :: ds2) ++ '.' :: r).drop (d :: ds2).length = '.' :: r :=
      List.drop_left (d :: ds2) ('.' :: r)
    rw [hdrop]
    simp

lemma bulletTrim_some_cases (l r : List Char) (h : bulletTrim l = some r) :
    (∃ c, l = c :: r ∧ (c = '-' || c = '*' || c = Char.ofNat 8226) = true) ∨
    (∃ ds, ds ≠ [] ∧ (∀ d ∈ ds, isDigitChar d = true) ∧ l = ds ++ '.' :: r) := by
  cases l with
  | nil => simp [bulletTrim] at h
  | cons c cs =>
    by_cases hbul : (c = '-' || c = '*' || c = Char.ofNat 8226) = true
    · rw [bulletTrim_bullet c cs hbul] at h
      left
      cases h
      exact ⟨c, rfl, hbul⟩
    · simp only [bulletTrim, if_neg hbul] at h
      by_cases hemp : ((c :: cs).takeWhile isDigitChar).isEmpty = true
      · rw [if_pos hemp] at h; cases h
      · rw [if_neg hemp] at h
        right
        revert h
        rcases hdrop : (c :: cs).drop ((c :: cs).takeWhile isDigitChar).length
          with _ | ⟨d, rest⟩
        · intro h; simp at h
        · intro h
          by_cases hdot : d = '.'
          · subst hdot
            simp only [if_true, eq_self_iff_true, Option.some.injEq] at h
            have hr : rest = r := by simpa using h
            refine ⟨(c :: cs).takeWhile isDigitChar, ?_, ?_, ?_⟩
            · intro habs
              rw [habs] at hemp
              simp at hemp
            · intro x hx
              exact List.mem_takeWhile_imp hx
            · have hdws : (c :: cs).dropWhile isDigitChar = '.' :: r := by
                rw [← drop_takeWhile_length, hdrop, hr]
              conv_lhs =>
                rw [← List.takeWhile_append_dropWhile (p := isDigitChar) (l := c :: cs)]
              rw [hdws]
          · simp [hdot] at h

lemma bulletTrim_append (l r s : List Char) (h : bulletTrim l = some r) :
    bulletTrim (l ++ s) = some (r ++ s) := by
  rcases bulletTrim_some_cases l r h with ⟨c, hl, hc⟩ | ⟨ds, hne, hd, hl⟩
  · subst hl
    rw [List.cons_append]
    exact bulletTrim_bullet c (r ++ s) hc
  · subst hl
    rw [List.append_assoc, List.cons_append]
    exact bulletTrim_digits ds (r ++ s) hne hd

lemma bulletTrim_none_append (c : Char) (cs t : List Char)
    (h : bulletTrim (c :: cs) = none) :
    bulletTrim (c :: (cs ++ '\n' :: t)) = none := by
  by_cases hbul : (c = '-' || c = '*' || c = Char.ofNat 8226) = true
  · rw [bulletTrim_bullet c cs hbul] at h
    cases h
  · simp only [bulletTrim, if_neg hbul] at h ⊢
    by_cases hemp : ((c :: cs).takeWhile isDigitChar).isEmpty = true
    · -- no leading digit in the line, hence none in the appended text either
      have hcnd : isDigitChar c = false := takeWhile_nil_head isDigitChar c cs
        (List.isEmpty_iff.mp hemp)
      have hnil : (c :: (cs ++ '\n' :: t)).takeWhile isDigitChar = [] := by
        rw [List.takeWhile_cons_of_neg (by simp [hcnd])]
      rw [if_pos (by rw [hnil]; rfl)]
    · rw [if_neg hemp] at h
      rcases hdw : (c :: cs).dropWhile isDigitChar with _ | ⟨d, rest0⟩
      · -- the whole line is digits; the appended text continues with '\n', not '.'
        have hall : ∀ x ∈ c :: cs, isDigitChar x = true := List.dropWhile_eq_nil_iff.mp hdw
        have htw : (c :: cs).takeWhile isDigitChar = c :: cs :=
          List.takeWhile_eq_self_iff.mpr hall
        have htw2 : (c :: (cs ++ '\n' :: t)).takeWhile isDigitChar = c :: cs := by
          rw [← List.cons_append]
          exact takeWhile_append_break isDigitChar (c :: cs) '\n' t hall (by decide)
        rw [if_neg (by rw [htw2]; simp)]
        have hdrop2 : (c :: (cs ++ '\n' :: t)).drop
            ((c :: (cs ++ '\n' :: t)).takeWhile isDigitChar).length = '\n' :: t := by
          rw [htw2, ← List.cons_append]
          exact List.drop_left (c :: cs) ('\n' :: t)
        rw [hdrop2]
        simp
      · -- the digit run stops inside the line at a non-dot character
        have hstop := takeWhile_append_stop isDigitChar (c :: cs) ('\n' :: t)
          (by rw [hdw]; simp)
        have htw2 : (c :: (cs ++ '\n' :: t)).takeWhile isDigitChar
            = (c :: cs).takeWhile isDigitChar := by
          rw [← List.cons_append]; exact hstop.1
        rw [if_neg (by rw [htw2]; exact hemp)]
        have hdrop0 : (c :: cs).drop ((c :: cs).takeWhile isDigitChar).length = d :: rest0 := by
          rw [drop_takeWhile_length, hdw]
        have hdrop2 : (c :: (cs ++ '\n' :: t)).drop
            ((c :: (cs ++ '\n' :: t)).takeWhile isDigitChar).length
            = d :: (rest0 ++ '\n' :: t) := by
          rw [drop_takeWhile_length, ← List.cons_append, hstop.2, hdw, List.cons_append]
        rw [hdrop0] at h
        rw [hdrop2]
        have hdne : ¬ d = '.' := by
          intro habs
          subst habs
          simp at h
        simp [hdne]

lemma mem_of_mem_dropWhile {α : Type} (p : α → Bool) (l : List α) (c : α)
    (h : c ∈ l.dropWhile p) : c ∈ l := by
  have h2 : c ∈ l.takeWhile p ++ l.dropWhile p := List.mem_append_right _ h
  rwa [List.takeWhile_append_dropWhile] at h2

lemma mem_of_mem_takeWhile {α : Type} (p : α → Bool) (l : List α) (c : α)
    (h : c ∈ l.takeWhile p) : c ∈ l := by
  have h2 : c ∈ l.takeWhile p ++ l.dropWhile p := List.mem_append_left _ h
  rwa [List.takeWhile_append_dropWhile] at h2

lemma bulletTrim_mem (l r : List Char) (h : bulletTrim l = some r) :
    ∀ c ∈ r, c ∈ l := by
  intro c hc
  rcases bulletTrim_some_cases l r h with ⟨d, hl, _⟩ | ⟨ds, _, _, hl⟩
  · subst hl; simp [hc]
  · subst hl; simp [hc]

lemma dropTrailingWs_decomp (x : List Char) :
    x = dropTrailingWs x ++ (x.reverse.takeWhile isSpaceChar).reverse := by
  calc x = x.reverse.reverse := (List.reverse_reverse x).symm
    _ = (x.reverse.takeWhile isSpaceChar ++ x.reverse.dropWhile isSpaceChar).reverse := by
        rw [List.takeWhile_append_dropWhile]
    _ = (x.reverse.dropWhile isSpaceChar).reverse
          ++ (x.reverse.takeWhile isSpaceChar).reverse := by
        rw [List.reverse_append]
    _ = dropTrailingWs x ++ (x.reverse.takeWhile isSpaceChar).reverse := rfl

lemma trailing_all_ws (x : List Char) :
    ∀ c ∈ (x.reverse.takeWhile isSpaceChar).reverse, isSpaceChar c = true := by
  intro c hc
  rw [List.mem_reverse] at hc
  exact List.mem_takeWhile_imp hc

lemma dropTrailingWs_no_ws_tail (x : List Char) (y0 : Char) (ys : List Char)
    (h : dropTrailingWs x = y0 :: ys) : dropTrailingWs (y0 :: ys) = y0 :: ys := by
  have h1 : x.reverse.dropWhile isSpaceChar = (y0 :: ys).reverse := by
    have := congrArg List.reverse h
    rwa [dropTrailingWs, List.reverse_reverse] at this
  rcases hz : (y0 :: ys).reverse with _ | ⟨z0, zs⟩
  · exact absurd (congrArg List.length hz) (by simp)
  · have hz0 : isSpaceChar z0 = false := by
      apply dropWhile_head_not isSpaceChar x.reverse z0 zs
      rw [h1, hz]
    unfold dropTrailingWs
    rw [hz, List.dropWhile_cons_of_neg (by simp [hz0]), ← hz, List.reverse_reverse]

lemma pyStrip_idem (l : List Char) : pyStrip (pyStrip l) = pyStrip l := by
  rcases hy : pyStrip l with _ | ⟨y0, ys⟩
  · rfl
  · unfold pyStrip at hy
    have hhead : isSpaceChar y0 = false := by
      have hdec := dropTrailingWs_decomp (l.dropWhile isSpaceChar)
      rw [hy] at hdec
      rcases hx : l.dropWhile isSpaceChar with _ | ⟨x0, xs⟩
      · rw [hx] at hdec
        exact absurd (congrArg List.length hdec) (by simp)
      · have hx0 : isSpaceChar x0 = false := dropWhile_head_not isSpaceChar l x0 xs hx
        rw [hx] at hdec
        have : x0 = y0 := List.head_eq_of_cons_eq hdec
        rwa [this] at hx0
    unfold pyStrip
    rw [List.dropWhile_cons_of_neg (by simp [hhead])]
    exact dropTrailingWs_no_ws_tail (l.dropWhile isSpaceChar) y0 ys hy

/-- Counterexample to C9 as stated: on the raw output
`"FINAL SUMMARY:ok KEY CONCEPTS:\n-\n- x"`, the bare `-` line has only
whitespace after its marker, so the findall pattern's whitespace run
crosses the newline and captures the remainder of the next line including
its own marker: the code yields `["- x"]`, while the claim's line-based
extraction yields `["x"]`. -/
theorem c9_counterexample :
    (parse_llm_output "FINAL SUMMARY:ok KEY CONCEPTS:\n-\n- x".toList).key_concepts ≠
      specKeyConcepts
        (pyStrip ((conceptsMatch "FINAL SUMMARY:ok KEY CONCEPTS:\n-\n- x".toList).getD []))
      := by decide

lemma matchAtCore_single (l' r : List Char) (hb : bulletTrim l' = some r)
    (hnl : ∀ c ∈ l', c ≠ '\n') :
    ∃ bb, matchAtCore l' = some (pyStrip r, [], bb) := by
  have hrnl : ∀ c ∈ r, c ≠ '\n' := fun c hc => hnl c (bulletTrim_mem l' r hb c hc)
  have hr2nl : ∀ c ∈ r.dropWhile isSpaceChar, c ≠ '\n' :=
    fun c hc => hrnl c (mem_of_mem_dropWhile _ _ _ hc)
  have h1 : (r.dropWhile isSpaceChar).takeWhile (fun c => c ≠ '\n')
      = r.dropWhile isSpaceChar :=
    List.takeWhile_eq_self_iff.mpr (by intro c hc; simpa using hr2nl c hc)
  have hgrp : dropTrailingWs (r.dropWhile isSpaceChar) = pyStrip r := rfl
  have hdec := dropTrailingWs_decomp (r.dropWhile isSpaceChar)
  have h3 : (r.dropWhile isSpaceChar).drop (pyStrip r).length
      = ((r.dropWhile isSpaceChar).reverse.takeWhile isSpaceChar).reverse := by
    conv_lhs => rw [hdec]
    rw [hgrp, List.drop_left]
  have h4 : (((r.dropWhile isSpaceChar).reverse.takeWhile isSpaceChar).reverse).takeWhile
      isSpaceChar = ((r.dropWhile isSpaceChar).reverse.takeWhile isSpaceChar).reverse :=
    List.takeWhile_eq_self_iff.mpr (trailing_all_ws _)
  refine ⟨decide (1 ≤ ((r.dropWhile isSpaceChar).reverse.takeWhile isSpaceChar).reverse.length)
      && decide ((((r.dropWhile isSpaceChar).reverse.takeWhile isSpaceChar).reverse).getD
        (((r.dropWhile isSpaceChar).reverse.takeWhile isSpaceChar).reverse.length - 1) ' '
          = '\n'), ?_⟩
  simp only [matchAtCore, hb, h1, hgrp, h3, h4, List.drop_length, List.isEmpty_nil,
    if_true]

lemma pyStrip_dropWhile_ne (r : List Char) (hne : (pyStrip r).isEmpty = false) :
    r.dropWhile isSpaceChar ≠ [] := by
  intro habs
  unfold pyStrip at hne
  rw [habs] at hne
  simp [dropTrailingWs] at hne

/-- The `j + 1` / `0` selector for the last-newline index of a
whitespace run that starts with a `'\n'`. -/
def succNlIdx : Option Nat → Nat
  | some i => i + 1
  | none => 0

lemma lastNlIdx_cons_nl (u : List Char) :
    lastNlIdx ('\n' :: u) = some (succNlIdx (lastNlIdx u)) := by
  cases h : lastNlIdx u <;> simp [lastNlIdx, h, succNlIdx]

/-- Forget the begin-of-line flag of an attempted match. -/
def matchHead (o : Option (List Char × List Char × Bool)) : Option (List Char × List Char) :=
  o.map (fun trip => (trip.1, trip.2.1))

lemma matchAt_of_matchHead (o : Option (List Char × List Char × Bool))
    (g rest : List Char) (h : matchHead o = some (g, rest)) :
    ∃ b, o = some (g, rest, b) := by
  cases o with
  | none => simp [matchHead] at h
  | some trip =>
    simp only [matchHead, Option.map_some] at h
    cases h
    exact ⟨trip.2.2, rfl⟩

lemma matchAtCore_tail_shared (l' r t : List Char) (hb : bulletTrim l' = some r)
    (hnl : ∀ c ∈ l', c ≠ '\n') (hne : (pyStrip r).isEmpty = false) :
    (t.drop (t.takeWhile isSpaceChar).length = [] →
      matchHead (matchAtCore (l' ++ '\n' :: t)) = some (pyStrip r, [])) ∧
    (t.drop (t.takeWhile isSpaceChar).length ≠ [] →
      matchHead (matchAtCore (l' ++ '\n' :: t)) =
        some (pyStrip r,
          ('\n' :: t).drop (succNlIdx (lastNlIdx (t.takeWhile isSpaceChar))))) := by
  have hbt : bulletTrim (l' ++ '\n' :: t) = some (r ++ '\n' :: t) :=
    bulletTrim_append l' r ('\n' :: t) hb
  have hdwne : r.dropWhile isSpaceChar ≠ [] := pyStrip_dropWhile_ne r hne
  have hr2 : (r ++ '\n' :: t).dropWhile isSpaceChar
      = r.dropWhile isSpaceChar ++ '\n' :: t :=
    (takeWhile_append_stop isSpaceChar r ('\n' :: t) hdwne).2
  have hrnl : ∀ c ∈ r.dropWhile isSpaceChar, c ≠ '\n' :=
    fun c hc => hnl c (bulletTrim_mem l' r hb c (mem_of_mem_dropWhile _ _ _ hc))
  have hline : (r.dropWhile isSpaceChar ++ '\n' :: t).takeWhile (fun c => c ≠ '\n')
      = r.dropWhile isSpaceChar :=
    takeWhile_append_break _ _ '\n' t (by intro c hc; simpa using hrnl c hc) (by simp)
  have hgrp : dropTrailingWs (r.dropWhile isSpaceChar) = pyStrip r := rfl
  have hdec := dropTrailingWs_decomp (r.dropWhile isSpaceChar)
  rw [hgrp] at hdec
  have hr3' : (r.dropWhile isSpaceChar ++ '\n' :: t).drop (pyStrip r).length
      = ((r.dropWhile isSpaceChar).reverse.takeWhile isSpaceChar).reverse ++ '\n' :: t := by
    conv_lhs => rw [hdec]
    rw [List.append_assoc, List.drop_left]
  have htw_ws : ∀ c ∈ ((r.dropWhile isSpaceChar).reverse.takeWhile isSpaceChar).reverse,
      isSpaceChar c = true := trailing_all_ws _
  have hrun : (((r.dropWhile isSpaceChar).reverse.takeWhile isSpaceChar).reverse
        ++ '\n' :: t).takeWhile isSpaceChar
      = ((r.dropWhile isSpaceChar).reverse.takeWhile isSpaceChar).reverse
        ++ '\n' :: t.takeWhile isSpaceChar := by
    rw [(takeWhile_append_all isSpaceChar _ ('\n' :: t) htw_ws).1,
      List.takeWhile_cons_of_pos (by decide)]
  have hdroprun : ∀ n : Nat,
      (((r.dropWhile isSpaceChar).reverse.takeWhile isSpaceChar).reverse ++ '\n' :: t).drop
        (((r.dropWhile isSpaceChar).reverse.takeWhile isSpaceChar).reverse.length + n)
      = ('\n' :: t).drop n := fun n => List.drop_append n
  constructor
  · intro hempty
    have hq : ((((r.dropWhile isSpaceChar).reverse.takeWhile isSpaceChar).reverse
          ++ '\n' :: t).drop
        (((r.dropWhile isSpaceChar).reverse.takeWhile isSpaceChar).reverse
            ++ '\n' :: t.takeWhile isSpaceChar).length).isEmpty = true := by
      rw [List.length_append, List.length_cons, hdroprun, List.drop_succ_cons, hempty]
      rfl
    simp only [matchAt, matchAtCore, hbt, hr2, hline, hgrp, hr3', hrun, hq, if_true,
      matchHead, Option.map_some]
    rw [List.length_append, List.length_cons, hdroprun, List.drop_succ_cons, hempty]
    rfl
  · intro hne2
    have hq : ((((r.dropWhile isSpaceChar).reverse.takeWhile isSpaceChar).reverse
          ++ '\n' :: t).drop
        (((r.dropWhile isSpaceChar).reverse.takeWhile isSpaceChar).reverse
            ++ '\n' :: t.takeWhile isSpaceChar).length).isEmpty = false := by
      rw [List.length_append, List.length_cons, hdroprun, List.drop_succ_cons]
      simpa [List.isEmpty_iff] using hne2
    have hlast : lastNlIdx (((r.dropWhile isSpaceChar).reverse.takeWhile
          isSpaceChar).reverse ++ '\n' :: t.takeWhile isSpaceChar)
        = some (((r.dropWhile isSpaceChar).reverse.takeWhile isSpaceChar).reverse.length
            + succNlIdx (lastNlIdx (t.takeWhile isSpaceChar))) :=
      lastNlIdx_append_some _ _ _ (lastNlIdx_cons_nl _)
    simp only [matchAt, matchAtCore, hbt, hr2, hline, hgrp, hr3', hrun, hq,
      Bool.false_eq_true, if_false, hlast, Option.getD_some, matchHead, Option.map_some]
    rw [hdroprun]
    rfl

lemma length_dropWhile_le {α : Type} (p : α → Bool) (l : List α) :
    (l.dropWhile p).length ≤ l.length := by
  conv_rhs => rw [← List.takeWhile_append_dropWhile (p := p) (l := l)]
  rw [List.length_append]
  omega

lemma bulletTrim_length (l r : List Char) (h : bulletTrim l = some r) :
    r.length < l.length := by
  rcases bulletTrim_some_cases l r h with ⟨c, hl, _⟩ | ⟨ds, hne, _, hl⟩
  · subst hl; simp
  · subst hl
    rw [List.length_append, List.length_cons]
    rcases ds with _ | ⟨d, ds2⟩
    · simp at hne
    · simp
      omega

lemma matchAt_rest_length (s g rest : List Char) (b : Bool)
    (h : matchAt s = some (g, rest, b)) : rest.length < s.length := by
  unfold matchAt matchAtCore at h
  rcases hbt : bulletTrim (s.dropWhile isSpaceChar) with _ | r2
  · rw [hbt] at h; cases h
  · rw [hbt] at h
    simp only [Option.some.injEq, Prod.mk.injEq] at h
    have hrest : rest.length ≤ (r2.dropWhile isSpaceChar).length := by
      rw [← h.2.1, List.length_drop, List.length_drop]
      omega
    have h1 : (r2.dropWhile isSpaceChar).length ≤ r2.length := length_dropWhile_le _ _
    have h2 : r2.length < (s.dropWhile isSpaceChar).length :=
      bulletTrim_length _ _ hbt
    have h3 : (s.dropWhile isSpaceChar).length ≤ s.length := length_dropWhile_le _ _
    omega

lemma matchAt_to_core_tail (l t : List Char) (hl : l.dropWhile isSpaceChar ≠ []) :
    matchAt (l ++ '\n' :: t) = matchAtCore (l.dropWhile isSpaceChar ++ '\n' :: t) := by
  unfold matchAt
  rw [(takeWhile_append_stop isSpaceChar l ('\n' :: t) hl).2]

lemma matchAt_ws_skip (w s : List Char) (hw : ∀ c ∈ w, isSpaceChar c = true) :
    matchAt (w ++ s) = matchAt s := by
  unfold matchAt
  rw [(takeWhile_append_all isSpaceChar w s hw).2]

lemma matchAt_blank_line (l t : List Char) (hl : ∀ c ∈ l, isSpaceChar c = true) :
    matchAt (l ++ '\n' :: t) = matchAt t := by
  have : l ++ '\n' :: t = (l ++ ['\n']) ++ t := by simp
  rw [this]
  exact matchAt_ws_skip (l ++ ['\n']) t (by
    intro c hc
    rcases List.mem_append.mp hc with h | h
    · exact hl c h
    · simp at h
      subst h
      decide)

lemma scanF_succ_cons_false (f : Nat) (c : Char) (cs : List Char) :
    scanF (f + 1) false (c :: cs) = scanF f (c = '\n') cs := rfl

lemma scanF_succ_cons_true (f : Nat) (c : Char) (cs : List Char) :
    scanF (f + 1) true (c :: cs) =
      (match matchAt (c :: cs) with
        | some (g, rest, b2) => g :: scanF f b2 rest
        | none => scanF f (c = '\n') cs) := rfl

lemma scanF_canon : ∀ (f : Nat) (s : List Char) (b : Bool), s.length < f →
    scanF f b s = scanF (s.length + 1) b s := by
  intro f
  induction f using Nat.strong_induction_on with
  | _ f IH =>
    intro s b hf
    cases s with
    | nil =>
      cases f with
      | zero => omega
      | succ f2 => rfl
    | cons c cs =>
      cases f with
      | zero => simp at hf
      | succ f2 =>
        have hcs : cs.length < f2 := by simp at hf; omega
        have hlen : (c :: cs).length + 1 = cs.length + 1 + 1 := rfl
        cases b with
        | false =>
          rw [scanF_succ_cons_false, hlen, scanF_succ_cons_false]
          exact IH f2 (by omega) cs _ hcs
        | true =>
          rw [scanF_succ_cons_true, hlen, scanF_succ_cons_true]
          rcases hm : matchAt (c :: cs) with _ | ⟨g, rest, b2⟩
          · exact IH f2 (by omega) cs _ hcs
          · have hrest : rest.length ≤ cs.length := by
              have := matchAt_rest_length (c :: cs) g rest b2 hm
              simp at this
              omega
            show g :: scanF f2 b2 rest = g :: scanF (cs.length + 1) b2 rest
            rw [IH f2 (by omega) rest b2 (by omega),
              IH (cs.length + 1) (by omega) rest b2 (by omega)]

/-- The findall scan with its canonical sufficient fuel. -/
def scan (b : Bool) (s : List Char) : List (List Char) :=
  scanF (s.length + 1) b s

lemma findallConcepts_eq_scan (t : List Char) : findallConcepts t = scan true t := rfl

lemma scan_nil (b : Bool) : scan b [] = [] := rfl

lemma scan_cons_false (c : Char) (cs : List Char) :
    scan false (c :: cs) = scan (c = '\n') cs := rfl

lemma scan_cons_true_none (c : Char) (cs : List Char)
    (h : matchAt (c :: cs) = none) :
    scan true (c :: cs) = scan (c = '\n') cs := by
  unfold scan
  have hlen : (c :: cs).length + 1 = cs.length + 1 + 1 := rfl
  rw [hlen, scanF_succ_cons_true, h]

lemma scan_cons_true_some (c : Char) (cs g rest : List Char) (b2 : Bool)
    (h : matchAt (c :: cs) = some (g, rest, b2)) :
    scan true (c :: cs) = g :: scan b2 rest := by
  have hrest : rest.length ≤ cs.length := by
    have := matchAt_rest_length (c :: cs) g rest b2 h
    simp at this
    omega
  unfold scan
  have hlen : (c :: cs).length + 1 = cs.length + 1 + 1 := rfl
  rw [hlen, scanF_succ_cons_true, h]
  exact congrArg (g :: ·) (scanF_canon (cs.length + 1) rest b2 (by omega))

lemma scan_newline (b : Bool) (s : List Char) : scan b ('\n' :: s) = scan true s := by
  have hnl : (decide ('\n' = '\n')) = true := rfl
  cases b with
  | false => rw [scan_cons_false, hnl]
  | true =>
    cases s with
    | nil =>
      have hm : matchAt ['\n'] = none := rfl
      rw [scan_cons_true_none '\n' [] hm, hnl]
    | cons c cs =>
      have hm : matchAt ('\n' :: c :: cs) = matchAt (c :: cs) := by
        have he : ('\n' :: c :: cs) = ['\n'] ++ (c :: cs) := rfl
        rw [he]
        exact matchAt_ws_skip ['\n'] (c :: cs)
          (by intro x hx; simp at hx; subst hx; rfl)
      rcases hms : matchAt (c :: cs) with _ | ⟨g, rest, b2⟩
      · rw [scan_cons_true_none '\n' (c :: cs) (hm.trans hms), hnl,
          scan_cons_true_none c cs hms]
      · rw [scan_cons_true_some '\n' (c :: cs) g rest b2 (hm.trans hms),
          scan_cons_true_some c cs g rest b2 hms]

lemma scan_skip_line (w t : List Char) (hw : ∀ c ∈ w, c ≠ '\n') :
    scan false (w ++ '\n' :: t) = scan true t := by
  induction w with
  | nil => exact scan_newline false t
  | cons c cs ih =>
    rw [List.cons_append, scan_cons_false]
    have hc : (decide (c = '\n')) = false := by
      simp [hw c (by simp)]
    rw [show (decide (c = '\n')) = false from hc]
    exact ih (fun d hd => hw d (by simp [hd]))

lemma scan_skip_end (w : List Char) (hw : ∀ c ∈ w, c ≠ '\n') :
    scan false w = [] := by
  induction w with
  | nil => rfl
  | cons c cs ih =>
    rw [scan_cons_false]
    have hc : (decide (c = '\n')) = false := by
      simp [hw c (by simp)]
    rw [show (decide (c = '\n')) = false from hc]
    exact ih (fun d hd => hw d (by simp [hd]))

lemma isBlankLine_all (bl : List Char) (h : isBlankLine bl = true) :
    ∀ c ∈ bl, isSpaceChar c = true :=
  List.dropWhile_eq_nil_iff.mp (List.isEmpty_iff.mp h)

lemma joinNl_all_ws : ∀ (L : List (List Char)),
    (∀ l ∈ L, ∀ c ∈ l, isSpaceChar c = true) →
    ∀ c ∈ joinNl L, isSpaceChar c = true := by
  intro L
  induction L with
  | nil => intro _ c hc; simp [joinNl] at hc
  | cons l L' ih =>
    intro h c hc
    cases L' with
    | nil => exact h l (by simp) c hc
    | cons l2 ls2 =>
      rw [joinNl_cons _ _ (by simp)] at hc
      rcases List.mem_append.mp hc with h1 | h1
      · exact h l (by simp) c h1
      · rcases List.mem_cons.mp h1 with h2 | h2
        · subst h2; rfl
        · exact ih (fun x hx => h x (by simp [hx])) c h2

lemma mem_joinNl : ∀ (L : List (List Char)) (l : List Char) (c : Char),
    l ∈ L → c ∈ l → c ∈ joinNl L := by
  intro L
  induction L with
  | nil => intro l c hl _; simp at hl
  | cons x L' ih =>
    intro l c hl hc
    cases L' with
    | nil =>
      simp at hl
      subst hl
      simpa [joinNl] using hc
    | cons l2 ls2 =>
      rw [joinNl_cons _ _ (by simp)]
      rcases List.mem_cons.mp hl with h | h
      · subst h
        exact List.mem_append_left _ hc
      · refine List.mem_append_right _ ?_
        exact List.mem_cons_of_mem '\n' (ih l c h hc)

lemma lineConcept_blank (l : List Char) (h : isBlankLine l = true) :
    lineConcept l = none := by
  unfold lineConcept
  rw [List.isEmpty_iff.mp h]
  rfl

lemma lines_rest (B : List (List Char)) (m : List Char) (L2 : List (List Char))
    (hB : ∀ bl ∈ B, isBlankLine bl = true)
    (hBnl : ∀ bl ∈ B, ∀ c ∈ bl, c ≠ '\n')
    (hm : m.dropWhile isSpaceChar ≠ [])
    (hmnl : ∀ c ∈ m, c ≠ '\n') :
    (joinNl (B ++ m :: L2)).drop
        ((joinNl (B ++ m :: L2)).takeWhile isSpaceChar).length ≠ [] ∧
    ('\n' :: joinNl (B ++ m :: L2)).drop
        (succNlIdx (lastNlIdx ((joinNl (B ++ m :: L2)).takeWhile isSpaceChar)))
      = '\n' :: joinNl (m :: L2) := by
  induction B with
  | nil =>
    have hu : (joinNl (m :: L2)).takeWhile isSpaceChar = m.takeWhile isSpaceChar := by
      cases L2 with
      | nil => rfl
      | cons l2 ls2 =>
        rw [joinNl_cons m _ (by simp)]
        exact (takeWhile_append_stop isSpaceChar m ('\n' :: joinNl (l2 :: ls2)) hm).1
    constructor
    · rw [List.nil_append, drop_takeWhile_length]
      cases L2 with
      | nil =>
        simpa [joinNl] using hm
      | cons l2 ls2 =>
        rw [joinNl_cons m _ (by simp),
          (takeWhile_append_stop isSpaceChar m ('\n' :: joinNl (l2 :: ls2)) hm).2]
        rcases hdw : m.dropWhile isSpaceChar with _ | ⟨d, ds⟩
        · exact absurd hdw hm
        · simp
    · rw [List.nil_append, hu]
      have hnone : lastNlIdx (m.takeWhile isSpaceChar) = none := by
        apply lastNlIdx_none
        intro c hc
        exact hmnl c (mem_of_mem_takeWhile isSpaceChar m c hc)
      rw [hnone]
      rfl
  | cons bl B' ih =>
    have ihr := ih (fun x hx => hB x (by simp [hx])) (fun x hx => hBnl x (by simp [hx]))
    have hblws : ∀ c ∈ bl, isSpaceChar c = true := isBlankLine_all bl (hB bl (by simp))
    have ht : joinNl ((bl :: B') ++ m :: L2)
        = bl ++ '\n' :: joinNl (B' ++ m :: L2) := by
      rw [List.cons_append]
      exact joinNl_cons bl _ (by simp)
    have hu : (bl ++ '\n' :: joinNl (B' ++ m :: L2)).takeWhile isSpaceChar
        = bl ++ '\n' :: (joinNl (B' ++ m :: L2)).takeWhile isSpaceChar := by
      rw [(takeWhile_append_all isSpaceChar bl _ hblws).1,
        List.takeWhile_cons_of_pos (by rfl)]
    have hlast : lastNlIdx ((bl ++ '\n' :: joinNl (B' ++ m :: L2)).takeWhile isSpaceChar)
        = some (bl.length
            + succNlIdx (lastNlIdx ((joinNl (B' ++ m :: L2)).takeWhile isSpaceChar))) := by
      rw [hu]
      exact lastNlIdx_append_some bl _ _ (lastNlIdx_cons_nl _)
    constructor
    · rw [ht, drop_takeWhile_length,
        (takeWhile_append_all isSpaceChar bl _ hblws).2,
        List.dropWhile_cons_of_pos (by rfl), ← drop_takeWhile_length]
      exact ihr.1
    · rw [ht, hlast]
      have hre : ('\n' :: (bl ++ '\n' :: joinNl (B' ++ m :: L2)))
          = ('\n' :: bl) ++ '\n' :: joinNl (B' ++ m :: L2) := by simp
      rw [hre]
      have hsucc : succNlIdx (some (bl.length
            + succNlIdx (lastNlIdx ((joinNl (B' ++ m :: L2)).takeWhile isSpaceChar))))
          = ('\n' :: bl).length
            + succNlIdx (lastNlIdx ((joinNl (B' ++ m :: L2)).takeWhile isSpaceChar)) := by
        simp [succNlIdx]
        omega
      rw [hsucc, List.drop_append]
      exact ihr.2

lemma scan_line_nomatch (l t : List Char) (hnl : ∀ c ∈ l, c ≠ '\n')
    (hm : matchAt (l ++ '\n' :: t) = none) :
    scan true (l ++ '\n' :: t) = scan true t := by
  cases l with
  | nil =>
    rw [List.nil_append]
    exact scan_newline true t
  | cons c cs =>
    rw [List.cons_append] at hm ⊢
    rw [scan_cons_true_none c _ hm]
    have hc : (decide (c = '\n')) = false := by simp [hnl c (by simp)]
    rw [hc]
    exact scan_skip_line cs t (fun d hd => hnl d (by simp [hd]))

lemma scan_line_end_nomatch (l : List Char) (hnl : ∀ c ∈ l, c ≠ '\n')
    (hm : matchAt l = none) : scan true l = [] := by
  cases l with
  | nil => rfl
  | cons c cs =>
    rw [scan_cons_true_none c cs hm]
    have hc : (decide (c = '\n')) = false := by simp [hnl c (by simp)]
    rw [hc]
    exact scan_skip_end cs (fun d hd => hnl d (by simp [hd]))

lemma scan_blank_step (l t : List Char) (hws : ∀ c ∈ l, isSpaceChar c = true)
    (hnl : ∀ c ∈ l, c ≠ '\n') :
    scan true (l ++ '\n' :: t) = scan true t := by
  have hmm : matchAt (l ++ '\n' :: t) = matchAt t := matchAt_blank_line l t hws
  rcases hmt : matchAt t with _ | ⟨g, rest, b2⟩
  · exact scan_line_nomatch l t hnl (hmm.trans hmt)
  · cases t with
    | nil =>
      rw [show matchAt ([] : List Char) = none from rfl] at hmt
      cases hmt
    | cons d ds =>
      cases l with
      | nil =>
        rw [List.nil_append]
        exact scan_newline true (d :: ds)
      | cons c cs =>
        rw [List.cons_append]
        rw [scan_cons_true_some c _ g rest b2 (by rw [← List.cons_append]; exact hmm.trans hmt)]
        rw [scan_cons_true_some d ds g rest b2 hmt]

lemma scan_join : ∀ (n : Nat) (L : List (List Char)),
    L.length ≤ n →
    (∀ l ∈ L, ∀ c ∈ l, c ≠ '\n') →
    (∀ l ∈ L, goodLine l = true) →
    scan true (joinNl L) = L.filterMap lineConcept := by
  intro n
  induction n with
  | zero =>
    intro L hL _ _
    have hLnil : L = [] := List.length_eq_zero.mp (Nat.le_zero.mp hL)
    subst hLnil
    rfl
  | succ n ih =>
    intro L hL hnl hgood
    cases L with
    | nil => rfl
    | cons l L' =>
      have hlnl : ∀ c ∈ l, c ≠ '\n' := hnl l (by simp)
      have hL' : L'.length ≤ n := by simp at hL; omega
      rcases hbt : bulletTrim (l.dropWhile isSpaceChar) with _ | r
      · -- no marker on this line: it contributes nothing
        have hlc : lineConcept l = none := by simp [lineConcept, hbt]
        cases L' with
        | nil =>
          have hm : matchAt l = none := by
            show matchAtCore (l.dropWhile isSpaceChar) = none
            unfold matchAtCore
            rw [hbt]
          rw [show joinNl [l] = l from rfl, scan_line_end_nomatch l hlnl hm]
          simp [hlc]
        | cons l2 ls2 =>
          rw [joinNl_cons l _ (by simp)]
          by_cases hbl : l.dropWhile isSpaceChar = []
          · rw [scan_blank_step l _ (List.dropWhile_eq_nil_iff.mp hbl) hlnl,
              ih (l2 :: ls2) hL' (fun x hx => hnl x (by simp [hx]))
                (fun x hx => hgood x (by simp [hx]))]
            simp [hlc]
          · rcases hld : l.dropWhile isSpaceChar with _ | ⟨d, ds'⟩
            · exact absurd hld hbl
            · have hm : matchAt (l ++ '\n' :: joinNl (l2 :: ls2)) = none := by
                rw [matchAt_to_core_tail l _ hbl, hld, List.cons_append]
                show matchAtCore (d :: (ds' ++ '\n' :: joinNl (l2 :: ls2))) = none
                unfold matchAtCore
                rw [bulletTrim_none_append d ds' _ (by rw [← hld]; exact hbt)]
              rw [scan_line_nomatch l _ hlnl hm,
                ih (l2 :: ls2) hL' (fun x hx => hnl x (by simp [hx]))
                  (fun x hx => hgood x (by simp [hx]))]
              simp [hlc]
      · -- marker line with non-blank content
        have hgood_l : (pyStrip r).isEmpty = false := by
          have hg := hgood l (by simp)
          unfold goodLine at hg
          rw [hbt] at hg
          simpa using hg
        have hlc : lineConcept l = some (pyStrip r) := by
          simp [lineConcept, hbt, hgood_l]
        have hbl : l.dropWhile isSpaceChar ≠ [] := by
          intro habs
          rw [habs] at hbt
          cases hbt
        have hl'nl : ∀ c ∈ l.dropWhile isSpaceChar, c ≠ '\n' :=
          fun c hc => hlnl c (mem_of_mem_dropWhile _ _ _ hc)
        have hlne : l ≠ [] := by
          intro habs
          rw [habs] at hbl
          exact hbl rfl
        obtain ⟨c, cs, hl0⟩ : ∃ c cs, l = c :: cs := by
          cases l with
          | nil => exact absurd rfl hlne
          | cons c cs => exact ⟨c, cs, rfl⟩
        subst hl0
        cases L' with
        | nil =>
          obtain ⟨bb, hm⟩ := matchAtCore_single ((c :: cs).dropWhile isSpaceChar) r
            hbt hl'nl
          have hm2 : matchAt (c :: cs) = some (pyStrip r, [], bb) := hm
          rw [show joinNl [c :: cs] = c :: cs from rfl,
            scan_cons_true_some c cs _ _ _ hm2, scan_nil]
          simp [hlc]
        | cons l2 ls2 =>
          have hshared := matchAtCore_tail_shared ((c :: cs).dropWhile isSpaceChar) r
            (joinNl (l2 :: ls2)) hbt hl'nl hgood_l
          rw [joinNl_cons (c :: cs) _ (by simp)]
          by_cases hrest : (joinNl (l2 :: ls2)).drop
              ((joinNl (l2 :: ls2)).takeWhile isSpaceChar).length = []
          · obtain ⟨bb, hmc⟩ := matchAt_of_matchHead _ _ _ (hshared.1 hrest)
            have hm2 : matchAt ((c :: cs) ++ '\n' :: joinNl (l2 :: ls2))
                = some (pyStrip r, [], bb) := by
              rw [matchAt_to_core_tail (c :: cs) _ hbl]
              exact hmc
            rw [List.cons_append] at hm2 ⊢
            rw [scan_cons_true_some c _ _ _ _ hm2, scan_nil]
            have hallws : ∀ x ∈ joinNl (l2 :: ls2), isSpaceChar x = true := by
              have hdw : (joinNl (l2 :: ls2)).dropWhile isSpaceChar = [] := by
                rw [← drop_takeWhile_length]
                exact hrest
              exact List.dropWhile_eq_nil_iff.mp hdw
            have hblank : (l2 :: ls2).filterMap lineConcept = [] := by
              rw [List.filterMap_eq_nil_iff]
              intro x hx
              apply lineConcept_blank
              unfold isBlankLine
              rw [List.isEmpty_iff, List.dropWhile_eq_nil_iff]
              intro ch hch
              exact hallws ch (mem_joinNl _ x ch hx hch)
            simp [hlc, hblank]
          · rcases hrest2 : (l2 :: ls2).dropWhile isBlankLine with _ | ⟨m, L2⟩
            · exfalso
              have hallb : ∀ x ∈ (l2 :: ls2), isBlankLine x = true :=
                List.dropWhile_eq_nil_iff.mp hrest2
              have hallws : ∀ x ∈ joinNl (l2 :: ls2), isSpaceChar x = true :=
                joinNl_all_ws _ (fun u hu => isBlankLine_all u (hallb u hu))
              exact hrest (by
                rw [drop_takeWhile_length]
                exact List.dropWhile_eq_nil_iff.mpr hallws)
            · have hdecomp : (l2 :: ls2)
                  = (l2 :: ls2).takeWhile isBlankLine ++ m :: L2 := by
                conv_lhs =>
                  rw [← List.takeWhile_append_dropWhile (p := isBlankLine) (l := l2 :: ls2)]
                rw [hrest2]
              have hmem_m : m ∈ (l2 :: ls2) :=
                mem_of_mem_dropWhile isBlankLine _ m (by rw [hrest2]; simp)
              have hmemL2 : ∀ x ∈ L2, x ∈ (l2 :: ls2) := fun x hx =>
                mem_of_mem_dropWhile isBlankLine _ x (by rw [hrest2]; simp [hx])
              have hBblank : ∀ bl ∈ (l2 :: ls2).takeWhile isBlankLine,
                  isBlankLine bl = true := fun bl hbl2 => List.mem_takeWhile_imp hbl2
              have hBnl : ∀ bl ∈ (l2 :: ls2).takeWhile isBlankLine, ∀ x ∈ bl, x ≠ '\n' :=
                fun bl hbl2 => hnl bl
                  (List.mem_cons_of_mem (c :: cs) (mem_of_mem_takeWhile _ _ _ hbl2))
              have hmnotblank : isBlankLine m = false :=
                dropWhile_head_not isBlankLine (l2 :: ls2) m L2 hrest2
              have hmdw : m.dropWhile isSpaceChar ≠ [] := by
                intro habs
                unfold isBlankLine at hmnotblank
                rw [habs] at hmnotblank
                simp at hmnotblank
              have hmnl2 : ∀ x ∈ m, x ≠ '\n' := hnl m (List.mem_cons_of_mem (c :: cs) hmem_m)
              have hlr := lines_rest ((l2 :: ls2).takeWhile isBlankLine) m L2
                hBblank hBnl hmdw hmnl2
              have hj : joinNl (l2 :: ls2)
                  = joinNl ((l2 :: ls2).takeWhile isBlankLine ++ m :: L2) := by
                rw [← hdecomp]
              have hmh := hshared.2 hrest
              rw [hj, hlr.2] at hmh
              obtain ⟨bb, hmc⟩ := matchAt_of_matchHead _ _ _ hmh
              have hm2 : matchAt ((c :: cs) ++ '\n'
                    :: joinNl ((l2 :: ls2).takeWhile isBlankLine ++ m :: L2))
                  = some (pyStrip r, '\n' :: joinNl (m :: L2), bb) := by
                rw [matchAt_to_core_tail (c :: cs) _ hbl]
                exact hmc
              rw [hj]
              rw [List.cons_append] at hm2 ⊢
              rw [scan_cons_true_some c _ _ _ _ hm2, scan_newline]
              have hlenm : (m :: L2).length ≤ n := by
                have hlen2 := congrArg List.length hdecomp
                rw [List.length_append] at hlen2
                simp at hL'
                simp at hlen2 ⊢
                omega
              rw [ih (m :: L2) hlenm (by
                  intro x hx
                  rcases List.mem_cons.mp hx with h1 | h1
                  · subst h1
                    exact hmnl2
                  · exact hnl x (List.mem_cons_of_mem (c :: cs) (hmemL2 x h1)))
                (by
                  intro x hx
                  rcases List.mem_cons.mp hx with h1 | h1
                  · subst h1
                    exact hgood x (List.mem_cons_of_mem (c :: cs) hmem_m)
                  · exact hgood x (List.mem_cons_of_mem (c :: cs) (hmemL2 x h1)))]
              have hfB : ((l2 :: ls2).takeWhile isBlankLine).filterMap lineConcept
                  = [] := by
                rw [List.filterMap_eq_nil_iff]
                intro x hx
                exact lineConcept_blank x (hBblank x hx)
              conv_rhs => rw [hdecomp]
              simp [hlc, List.filterMap_append, hfB]

lemma lineConcept_some_shape (l v : List Char) (h : lineConcept l = some v) :
    pyStrip v = v ∧ v.isEmpty = false := by
  unfold lineConcept at h
  rcases hbt : bulletTrim (l.dropWhile isSpaceChar) with _ | r
  · rw [hbt] at h; cases h
  · rw [hbt] at h
    simp only [] at h
    split_ifs at h with hemp
    all_goals cases h
    exact ⟨pyStrip_idem r, by simpa using hemp⟩

lemma filterMap_lineConcept_clean (L : List (List Char)) :
    ((L.filterMap lineConcept).map pyStrip).filter (fun c => !c.isEmpty)
      = L.filterMap lineConcept := by
  induction L with
  | nil => rfl
  | cons l L' ih =>
    rcases hlc : lineConcept l with _ | v
    · simp only [List.filterMap_cons, hlc]
      exact ih
    · rcases lineConcept_some_shape l v hlc with ⟨hid, hne⟩
      simp only [List.filterMap_cons, hlc, List.map_cons, List.filter_cons, hid, hne]
      simp only [Bool.not_false, if_true]
      rw [ih]

/-- Amended C9: for every raw synthesis string containing both markers, in
which no line of the concepts section that begins with a bullet or
numeric-dot marker has only whitespace after its marker, the key concepts
are exactly the lines after the `KEY CONCEPTS:` marker that begin (after
optional leading whitespace) with a bullet (`-`, `*`, `•`) or numeric-dot
marker, with the marker and surrounding whitespace trimmed, blank results
discarded, in order of occurrence, duplicates preserved. -/
theorem c9_theorem (raw g1 g2 : List Char)
    (h1 : summaryMatch raw = some g1)
    (h2 : conceptsMatch raw = some g2)
    (hgood : ∀ l ∈ splitOnNl (pyStrip g2), goodLine l = true) :
    (parse_llm_output raw).key_concepts
      = (splitOnNl (pyStrip g2)).filterMap lineConcept := by
  unfold parse_llm_output
  rw [h1, h2]
  show ((findallConcepts (pyStrip g2)).map pyStrip).filter (fun c => !c.isEmpty) = _
  rw [findallConcepts_eq_scan]
  conv_lhs =>
    rw [show pyStrip g2 = joinNl (splitOnNl (pyStrip g2)) from (joinNl_splitOnNl _).symm]
  rw [scan_join (splitOnNl (pyStrip g2)).length _ (le_refl _)
    (fun l hl c hc habs => (splitOnNl_no_nl _ l hl) (habs ▸ hc)) hgood]
  exact filterMap_lineConcept_clean _

/-- Witness for amended C9 at the well-formed two-bullet input of C2. -/
theorem c9_witness :
    (parse_llm_output
        "FINAL SUMMARY:\nAlpha beta.\nKEY CONCEPTS:\n- one\n- two\n".toList).key_concepts
      = (splitOnNl (pyStrip "\n- one\n- two\n".toList)).filterMap lineConcept :=
  c9_theorem _ "\nAlpha beta.\n".toList "\n- one\n- two\n".toList
    (by decide) (by decide) (by decide)

end Summarizer
